import Mathlib

/-!
Verification development for the `shruggr/inspiration` Bitcoin SV indexer.

Bytes are modelled as `List Nat` (each element a byte value below 256 where it
matters).  Go machine-integer arithmetic is modelled on `Nat` with explicit
`% 2^w` truncation at the points where the Go code truncates.  The Go
`kvstore.KVStore` (an in-memory map used by the merkle and index builders) is
modelled as an association list with latest-write-first lookup.  Fallible Go
functions returning `(T, error)` are modelled as `Option`.
-/

namespace Bytes

/-- Big-endian 2-byte encoding, mirroring `binary.BigEndian.PutUint16`. -/
def be16 (n : Nat) : List Nat := [n / 256 % 256, n % 256]

/-- Big-endian 4-byte encoding, mirroring `binary.BigEndian.PutUint32`. -/
def be32 (n : Nat) : List Nat :=
  [n / 16777216 % 256, n / 65536 % 256, n / 256 % 256, n % 256]

/-- Big-endian decoding of a byte list, mirroring `binary.BigEndian.Uint16/Uint32`. -/
def beNat (l : List Nat) : Nat := l.foldl (fun a b => a * 256 + b) 0

/-- Go `copy(buf[k:k+len], src)` into a zero-initialised buffer: the result is
always exactly `len` bytes, truncating or zero-padding `src`. -/
def copyInto (len : Nat) (src : List Nat) : List Nat :=
  (src ++ List.replicate len 0).take len

theorem copyInto_length (len : Nat) (src : List Nat) : (copyInto len src).length = len := by
  simp [copyInto]

theorem copyInto_of_length_eq {len : Nat} {src : List Nat} (h : src.length = len) :
    copyInto len src = src := by
  simp [copyInto, List.take_append_eq_append_take, h]

theorem be16_beNat {n : Nat} (h : n < 65536) : beNat (be16 n) = n := by
  simp only [be16, beNat, List.foldl]
  have h1 : n / 256 % 256 = n / 256 := Nat.mod_eq_of_lt (by omega)
  rw [h1]
  omega

theorem be32_beNat {n : Nat} (h : n < 4294967296) : beNat (be32 n) = n := by
  simp only [be32, beNat, List.foldl]
  have h1 : n / 16777216 % 256 = n / 16777216 := Nat.mod_eq_of_lt (by omega)
  rw [h1]
  have e2 : n / 65536 % 256 = n / 65536 - n / 16777216 * 256 := by omega
  have e3 : n / 256 % 256 = n / 256 - n / 65536 * 256 := by omega
  rw [e2, e3]
  have d1 : n / 16777216 * 256 ≤ n / 65536 := by omega
  have d2 : n / 65536 * 256 ≤ n / 256 := by omega
  have d3 : n / 256 * 256 ≤ n := by omega
  omega

theorem be16_length (n : Nat) : (be16 n).length = 2 := rfl

theorem be32_length (n : Nat) : (be32 n).length = 4 := rfl

/-- Lexicographic byte comparison, mirroring Go `bytes.Compare` (returns
-1, 0 or 1; a strict prefix compares smaller). -/
def bytesCompare : List Nat → List Nat → Int
  | [], [] => 0
  | [], _ :: _ => -1
  | _ :: _, [] => 1
  | a :: as, b :: bs => if a < b then -1 else if b < a then 1 else bytesCompare as bs

theorem bytesCompare_refl (a : List Nat) : bytesCompare a a = 0 := by
  induction a with
  | nil => rfl
  | cons x xs ih => simp [bytesCompare, ih]

theorem bytesCompare_eq_zero_iff {a b : List Nat} : bytesCompare a b = 0 ↔ a = b := by
  induction a generalizing b with
  | nil => cases b <;> simp [bytesCompare]
  | cons x xs ih =>
    cases b with
    | nil => simp [bytesCompare]
    | cons y ys =>
      by_cases h1 : x < y
      · simp [bytesCompare, h1]
        omega
      · by_cases h2 : y < x
        · simp [bytesCompare, h1, h2]
          omega
        · have : x = y := by omega
          subst this
          simp [bytesCompare, h1, h2, ih]

/-- The boolean test `bytesCompare a b ≤ 0`, the ordering used by the
repository wherever it sorts byte slices. -/
def bcLe (a b : List Nat) : Prop := bytesCompare a b ≤ 0

instance : DecidableRel bcLe := fun _ _ => inferInstanceAs (Decidable (_ ≤ _))

theorem bytesCompare_swap (a b : List Nat) : bytesCompare a b = -bytesCompare b a := by
  induction a generalizing b with
  | nil => cases b <;> simp [bytesCompare]
  | cons x xs ih =>
    cases b with
    | nil => simp [bytesCompare]
    | cons y ys =>
      by_cases h1 : x < y
      · have h2 : ¬ y < x := by omega
        simp [bytesCompare, h1, h2]
      · by_cases h2 : y < x
        · simp [bytesCompare, h1, h2]
        · simp [bytesCompare, h1, h2, ih]

theorem bcLe_total (a b : List Nat) : bcLe a b ∨ bcLe b a := by
  unfold bcLe
  rw [bytesCompare_swap a b]
  omega

theorem bytesCompare_lt_trans {a b c : List Nat}
    (h1 : bytesCompare a b < 0) (h2 : bytesCompare b c < 0) : bytesCompare a c < 0 := by
  induction a generalizing b c with
  | nil =>
    cases b with
    | nil => simp [bytesCompare] at h1
    | cons y ys =>
      cases c with
      | nil => simp [bytesCompare] at h2
      | cons z zs => simp [bytesCompare]
  | cons x xs ih =>
    cases b with
    | nil => simp [bytesCompare] at h1
    | cons y ys =>
      cases c with
      | nil => simp [bytesCompare] at h2
      | cons z zs =>
        simp only [bytesCompare] at h1 h2 ⊢
        by_cases hxy : x < y
        · by_cases hyz : y < z
          · have : x < z := by omega
            simp [this]
          · by_cases hzy : z < y
            · simp [hyz, hzy] at h2
            · have : y = z := by omega
              subst this
              simp [hxy]
        · by_cases hyx : y < x
          · simp [hxy, hyx] at h1
          · have hxy2 : x = y := by omega
            subst hxy2
            by_cases hyz : x < z
            · simp [hyz]
            · by_cases hzy : z < x
              · simp [hyz, hzy] at h2
              · have : x = z := by omega
                subst this
                simp [hxy] at h1 h2 ⊢
                exact ih (by simpa [hxy] using h1) (by simpa [hxy] using h2)

theorem bcLe_trans {a b c : List Nat} (h1 : bcLe a b) (h2 : bcLe b c) : bcLe a c := by
  unfold bcLe at h1 h2 ⊢
  rcases lt_or_eq_of_le h1 with hl | he
  · rcases lt_or_eq_of_le h2 with hl2 | he2
    · exact le_of_lt (bytesCompare_lt_trans hl hl2)
    · have : b = c := bytesCompare_eq_zero_iff.mp he2
      subst this
      exact le_of_lt hl
  · have : a = b := bytesCompare_eq_zero_iff.mp he
    subst this
    exact h2

instance : IsTotal (List Nat) bcLe := ⟨bcLe_total⟩

instance : IsTrans (List Nat) bcLe := ⟨fun _ _ _ => bcLe_trans⟩

theorem bytesCompare_gt_of_le_of_gt {a b s : List Nat}
    (hab : bcLe a b) (has : bytesCompare a s > 0) : bytesCompare b s > 0 := by
  unfold bcLe at hab
  rcases lt_or_eq_of_le hab with hl | he
  · have h1 : bytesCompare s a < 0 := by
      rw [bytesCompare_swap]
      omega
    have h2 : bytesCompare s b < 0 := bytesCompare_lt_trans h1 hl
    rw [bytesCompare_swap] at h2
    omega
  · have : a = b := bytesCompare_eq_zero_iff.mp he
    subst this
    exact has

end Bytes

namespace Sha

/-- Modelled from the spec: the Go standard library `crypto/sha256` (FIPS 180-4
SHA-256), an external dependency whose sources are not part of this
repository.  32-bit words are `Nat` values truncated with `% 2^32`. -/
def add32 (a b : Nat) : Nat := (a + b) % 4294967296

def rotr32 (x n : Nat) : Nat := ((x >>> n) ||| (x <<< (32 - n))) % 4294967296

def bigSigma0 (x : Nat) : Nat := (rotr32 x 2) ^^^ (rotr32 x 13) ^^^ (rotr32 x 22)

def bigSigma1 (x : Nat) : Nat := (rotr32 x 6) ^^^ (rotr32 x 11) ^^^ (rotr32 x 25)

def smallSigma0 (x : Nat) : Nat := (rotr32 x 7) ^^^ (rotr32 x 18) ^^^ (x >>> 3)

def smallSigma1 (x : Nat) : Nat := (rotr32 x 17) ^^^ (rotr32 x 19) ^^^ (x >>> 10)

def chFn (x y z : Nat) : Nat := (x &&& y) ^^^ ((x ^^^ 4294967295) &&& z)

def majFn (x y z : Nat) : Nat := (x &&& y) ^^^ (x &&& z) ^^^ (y &&& z)

def roundConstants : List Nat :=
  [1116352408, 1899447441, 3049323471, 3921009573, 961987163, 1508970993,
   2453635748, 2870763221, 3624381080, 310598401, 607225278, 1426881987,
   1925078388, 2162078206, 2614888103, 3248222580, 3835390401, 4022224774,
   264347078, 604807628, 770255983, 1249150122, 1555081692, 1996064986,
   2554220882, 2821834349, 2952996808, 3210313671, 3336571891, 3584528711,
   113926993, 338241895, 666307205, 773529912, 1294757372, 1396182291,
   1695183700, 1986661051, 2177026350, 2456956037, 2730485921, 2820302411,
   3259730800, 3345764771, 3516065817, 3600352804, 4094571909, 275423344,
   430227734, 506948616, 659060556, 883997877, 958139571, 1322822218,
   1537002063, 1747873779, 1955562222, 2024104815, 2227730452, 2361852424,
   2428436474, 2756734187, 3204031479, 3329325298]

def initState : List Nat :=
  [1779033703, 3144134277, 1013904242, 2773480762, 1359893119, 2600822924,
   528734635, 1541459225]

def schedStep (w : List Nat) (i : Nat) : Nat :=
  add32 (add32 (smallSigma1 (w.getD (i - 2) 0)) (w.getD (i - 7) 0))
        (add32 (smallSigma0 (w.getD (i - 15) 0)) (w.getD (i - 16) 0))

def buildSchedAux (w : List Nat) : Nat → List Nat
  | 0 => w
  | n + 1 => buildSchedAux (w ++ [schedStep w w.length]) n

/-- Message schedule: extend the 16 block words to 64. -/
def buildSched (blockWords : List Nat) : List Nat := buildSchedAux blockWords 48

def roundStep (st : List Nat) (k w : Nat) : List Nat :=
  match st with
  | [a, b, c, d, e, f, g, h] =>
    let t1 := add32 (add32 (add32 h (bigSigma1 e)) (add32 (chFn e f g) k)) w
    let t2 := add32 (bigSigma0 a) (majFn a b c)
    [add32 t1 t2, a, b, c, add32 d t1, e, f, g]
  | _ => st

def bytesToWords : List Nat → List Nat
  | a :: b :: c :: d :: rest => (((a * 256 + b) * 256 + c) * 256 + d) :: bytesToWords rest
  | _ => []

/-- One SHA-256 compression of a 64-byte block into the 8-word state. -/
def compress (h : List Nat) (blockBytes : List Nat) : List Nat :=
  let w := buildSched (bytesToWords blockBytes)
  let st := (List.range 64).foldl (fun st i => roundStep st (roundConstants.getD i 0) (w.getD i 0)) h
  (List.zip h st).map (fun p => add32 p.1 p.2)

def wordToBytes (w : Nat) : List Nat :=
  [w / 16777216 % 256, w / 65536 % 256, w / 256 % 256, w % 256]

/-- SHA-256 padding: append 0x80, zero-pad to 56 mod 64, then the 8-byte
big-endian bit length. -/
def padMessage (msg : List Nat) : List Nat :=
  let len := msg.length
  let zeros := (64 - ((len + 9) % 64)) % 64
  msg ++ [0x80] ++ List.replicate zeros 0 ++
    ((wordToBytes (len * 8 / 4294967296)) ++ (wordToBytes (len * 8 % 4294967296)))

def chunks64Aux (l : List Nat) : Nat → List (List Nat)
  | 0 => []
  | fuel + 1 =>
    match l with
    | [] => []
    | _ => l.take 64 :: chunks64Aux (l.drop 64) fuel

def chunks64 (l : List Nat) : List (List Nat) := chunks64Aux l l.length

/-- SHA-256 of a byte list, producing the 32-byte digest. -/
def sha256 (msg : List Nat) : List Nat :=
  ((chunks64 (padMessage msg)).foldl compress initState).flatMap wordToBytes

/-- Double SHA-256, mirroring `merkle.doubleSHA256`. -/
def doubleSHA256 (data : List Nat) : List Nat := sha256 (sha256 data)

theorem roundStep_length (st : List Nat) (k w : Nat) : (roundStep st k w).length = st.length := by
  rcases st with _ | ⟨a, _ | ⟨b, _ | ⟨c, _ | ⟨d, _ | ⟨e, _ | ⟨f, _ | ⟨g, _ | ⟨h, _ | ⟨x, t⟩⟩⟩⟩⟩⟩⟩⟩⟩ <;> rfl

theorem foldl_roundStep_length (l : List Nat) (h : List Nat) :
    (l.foldl (fun st i => roundStep st (roundConstants.getD i 0)
      ((buildSched (bytesToWords b)).getD i 0)) h).length = h.length := by
  induction l generalizing h with
  | nil => rfl
  | cons x xs ih => rw [List.foldl_cons, ih, roundStep_length]

theorem compress_length (h : List Nat) (blockBytes : List Nat) :
    (compress h blockBytes).length = h.length := by
  unfold compress
  rw [List.length_map, List.length_zip, foldl_roundStep_length]
  omega

theorem foldl_compress_length (chunks : List (List Nat)) (h : List Nat) :
    (chunks.foldl compress h).length = h.length := by
  induction chunks generalizing h with
  | nil => rfl
  | cons c cs ih => simp [List.foldl, ih, compress_length]

theorem wordToBytes_length (w : Nat) : (wordToBytes w).length = 4 := rfl

theorem sha256_length (msg : List Nat) : (sha256 msg).length = 32 := by
  unfold sha256
  rw [List.length_flatMap]
  have h8 : ((chunks64 (padMessage msg)).foldl compress initState).length = 8 :=
    foldl_compress_length _ _
  generalize hst : (chunks64 (padMessage msg)).foldl compress initState = st at h8
  rcases st with _ | ⟨a, _ | ⟨b, _ | ⟨c, _ | ⟨d, _ | ⟨e, _ | ⟨f, _ | ⟨g, _ | ⟨h, _ | ⟨x, t⟩⟩⟩⟩⟩⟩⟩⟩⟩ <;>
    simp_all [wordToBytes_length]

theorem doubleSHA256_length (data : List Nat) : (doubleSHA256 data).length = 32 :=
  sha256_length _

set_option maxRecDepth 400000 in
/-- FIPS 180-4 test vector: sha256 of the ASCII string abc. -/
theorem sha256_testVector :
    sha256 [97, 98, 99] =
    [186, 120, 22, 191, 143, 1, 207, 234, 65, 65, 64, 222, 93, 174, 34, 35,
     176, 3, 97, 163, 150, 23, 122, 156, 180, 16, 255, 97, 242, 0, 21, 173] := by
  decide

end Sha

namespace Merkle

open Sha Bytes

/-- A multihash-wrapped double-SHA256 digest, mirroring
`multihash.WrapMerkleHash`: code byte 0x56 (dbl-sha2-256), length byte 0x20,
then the raw 32-byte digest. -/
def wrapMerkleHash (h : List Nat) : List Nat := 0x56 :: 0x20 :: h

/-- Mirrors `multihash.MerkleHash.Raw`: decode the multihash and return the
32-byte digest; fails when malformed or when the digest is not 32 bytes. -/
def merkleRaw (h : List Nat) : Option (List Nat) :=
  match h with
  | 0x56 :: 0x20 :: rest => if rest.length = 32 then some rest else none
  | _ => none

/-- Total version of `merkleRaw` for stating conclusions. -/
def merkleRawD (h : List Nat) : List Nat := (merkleRaw h).getD []

theorem merkleRaw_wrap {d : List Nat} (h : d.length = 32) :
    merkleRaw (wrapMerkleHash d) = some d := by
  simp [merkleRaw, wrapMerkleHash, h]

/-- The in-memory `kvstore` content store: an association list where the most
recent `Put` for a key shadows earlier ones. -/
abbrev Store := List (List Nat × List Nat)

def storePut (st : Store) (k v : List Nat) : Store := (k, v) :: st

def storeGet (st : Store) (k : List Nat) : Option (List Nat) :=
  (st.find? (fun kv => kv.1 == k)).map (fun kv => kv.2)

def storePutMany (st : Store) (ws : List (List Nat × List Nat)) : Store :=
  ws.foldl (fun s kv => storePut s kv.1 kv.2) st

/-- Mirrors `merkle.hashPair`: double SHA-256 of the 64-byte concatenation. -/
def hashPair (l r : List Nat) : List Nat := doubleSHA256 (l ++ r)

theorem hashPair_length (l r : List Nat) : (hashPair l r).length = 32 :=
  doubleSHA256_length _

/-- One level of `merkle.buildTree`: pair adjacent hashes, duplicating the last
when the level has odd length. -/
def pairUp : List (List Nat) → List (List Nat)
  | [] => []
  | [l] => [hashPair l l]
  | l :: r :: rest => hashPair l r :: pairUp rest

/-- The store writes a single `buildTree` level performs, in order: each
64-byte node `left ++ right` is put under the multihash of its pair hash. -/
def levelWrites : List (List Nat) → List (List Nat × List Nat)
  | [] => []
  | [l] => [(wrapMerkleHash (hashPair l l), l ++ l)]
  | l :: r :: rest => (wrapMerkleHash (hashPair l r), l ++ r) :: levelWrites rest

/-- Mirrors `merkle.Builder.buildTree` with the store threaded explicitly.
The fuel argument only bounds the recursion depth; `fuel ≥ hashes.length`
always suffices because each level at least halves the list. -/
def buildTreeAux (st : Store) (hashes : List (List Nat)) : Nat → Option (List Nat × Store)
  | 0 => none
  | fuel + 1 =>
    match hashes with
    | [] => none
    | [h] => some (h, st)
    | _ => buildTreeAux (storePutMany st (levelWrites hashes)) (pairUp hashes) fuel

/-- Mirrors `merkle.Builder.BuildSubtreeMerkleTree`: empty input fails, a
single txid is wrapped without touching the store, otherwise the tree is
built level by level and the root is wrapped. -/
def BuildSubtreeMerkleTree (st : Store) (txids : List (List Nat)) : Option (List Nat × Store) :=
  match txids with
  | [] => none
  | [t] => some (wrapMerkleHash t, st)
  | _ =>
    (buildTreeAux st txids (txids.length + 1)).map
      (fun rs => (wrapMerkleHash rs.1, rs.2))

/-- Mirrors `merkle.nextPowerOf2` (uint32 bit smearing).  For a uint32
argument the shifts and ors stay below 2^32, so only the final increment can
overflow: when the top bit of `n - 1` is set the smear yields `2^32 - 1` and
the Go `n++` wraps the result to `0`, which the final reduction models. -/
def nextPowerOf2 (n : Nat) : Nat :=
  if n = 0 then 1
  else
    let m := n - 1
    let m := m ||| (m >>> 1)
    let m := m ||| (m >>> 2)
    let m := m ||| (m >>> 4)
    let m := m ||| (m >>> 8)
    let m := m ||| (m >>> 16)
    (m + 1) % 4294967296

structure ProofNode where
  hash : List Nat
  isLeft : Bool
  position : Nat
deriving DecidableEq, Repr

structure MerkleProof where
  txid : List Nat
  position : Nat
  nodes : List ProofNode
deriving DecidableEq, Repr

/-- The split point of `merkle.buildProof`: half the next power of two,
clamped (the clamp branch is provably dead for counts in range). -/
def midOf (count : Nat) : Nat :=
  if nextPowerOf2 count / 2 > count then count / 2 + (if count % 2 = 1 then 1 else 0)
  else nextPowerOf2 count / 2

/-- Mirrors `merkle.Builder.buildProof`: walk the stored tree, recording the
sibling at each step; returns the recorded txid and the sibling list in the
order the Go code appends them (outermost first).  Fuel bounds recursion;
`fuel ≥ count` always suffices since the count strictly decreases. -/
def buildProofAux (st : Store) (nodeHash : List Nat) (position count : Nat) :
    Nat → Option (List Nat × List ProofNode)
  | 0 => none
  | fuel + 1 =>
    if count = 1 then
      (merkleRaw nodeHash).map (fun raw => (raw, []))
    else
      match storeGet st nodeHash with
      | none => none
      | some nodeData =>
        if nodeData.length ≠ 64 then none
        else if position < midOf count then
          if midOf count = 1 then
            some (nodeData.take 32, [⟨nodeData.drop 32, false, midOf count⟩])
          else
            (buildProofAux st (wrapMerkleHash (nodeData.take 32)) position (midOf count) fuel).map
              (fun tn => (tn.1, ⟨nodeData.drop 32, false, midOf count⟩ :: tn.2))
        else if count - midOf count = 1 then
          some (nodeData.drop 32, [⟨nodeData.take 32, true, 0⟩])
        else
          (buildProofAux st (wrapMerkleHash (nodeData.drop 32)) (position - midOf count)
            (count - midOf count) fuel).map
            (fun tn => (tn.1, ⟨nodeData.take 32, true, 0⟩ :: tn.2))

/-- Mirrors `merkle.Builder.BuildMerkleProof`: positions at or beyond the
transaction count are rejected, then the tree walk runs from the root. -/
def BuildMerkleProof (st : Store) (treeRoot : List Nat) (position txCount : Nat) :
    Option MerkleProof :=
  if position ≥ txCount then none
  else
    (buildProofAux st treeRoot position txCount (txCount + 1)).map
      (fun tn => ⟨tn.1, position, tn.2⟩)

/-- The fold `merkle.VerifyProof` performs: walk the recorded nodes from the
innermost (last appended) outward, hashing the running value with each
sibling on the recorded side. -/
def foldNodes (nodes : List ProofNode) (txid : List Nat) : List Nat :=
  nodes.foldr (fun node cur => if node.isLeft then hashPair node.hash cur else hashPair cur node.hash) txid

/-- Mirrors `merkle.VerifyProof`. -/
def VerifyProof (proof : MerkleProof) (expectedRoot : List Nat) : Bool :=
  foldNodes proof.nodes proof.txid == expectedRoot

end Merkle

namespace Merkle

theorem pairUp_length (l : List (List Nat)) : (pairUp l).length = (l.length + 1) / 2 := by
  match l with
  | [] => rfl
  | [x] => simp [pairUp]
  | a :: b :: rest =>
    show (pairUp rest).length + 1 = _
    rw [pairUp_length rest]
    simp only [List.length_cons]
    omega

theorem pairUp_ne_nil {l : List (List Nat)} (h : l ≠ []) : pairUp l ≠ [] := by
  match l with
  | [x] => simp [pairUp]
  | a :: b :: rest => simp [pairUp]

theorem pairUp_mem_length {l : List (List Nat)} (h : ∀ x ∈ l, x.length = 32) :
    ∀ x ∈ pairUp l, x.length = 32 := by
  match l with
  | [] => simp [pairUp]
  | [a] => simp [pairUp, hashPair_length]
  | a :: b :: rest =>
    intro x hx
    simp only [pairUp, List.mem_cons] at hx
    rcases hx with rfl | hx
    · exact hashPair_length _ _
    · exact pairUp_mem_length (fun y hy => h y (by simp [hy])) x hx

/-- Modelled from the spec: the reference Bitcoin merkle level — for each
pair `(L[2i], L[2i+1])`, with the last element duplicated when the level
length is odd, take the double-SHA256 of the concatenation. -/
def referenceLevel (l : List (List Nat)) : List (List Nat) :=
  (List.range ((l.length + 1) / 2)).map (fun i =>
    hashPair (l.getD (2 * i) []) (l.getD (min (2 * i + 1) (l.length - 1)) []))

/-- Modelled from the spec: iterate the reference level function until a
single hash remains; empty input has no root. -/
def referenceRootAux (l : List (List Nat)) : Nat → Option (List Nat)
  | 0 => none
  | fuel + 1 =>
    match l with
    | [] => none
    | [x] => some x
    | _ => referenceRootAux (referenceLevel l) fuel

/-- Modelled from the spec: the reference Bitcoin merkle root with
odd-duplication at every level. -/
def referenceMerkleRoot (txids : List (List Nat)) : Option (List Nat) :=
  referenceRootAux txids (txids.length + 1)

theorem referenceLevel_eq_pairUp (l : List (List Nat)) : referenceLevel l = pairUp l := by
  match l with
  | [] => rfl
  | [a] => simp [referenceLevel, pairUp, List.range_succ]
  | a :: b :: rest =>
    have hk : ((a :: b :: rest).length + 1) / 2 = (rest.length + 1) / 2 + 1 := by
      simp only [List.length_cons]
      omega
    unfold referenceLevel
    rw [hk, List.range_succ_eq_map, List.map_cons]
    have hhead :
        hashPair ((a :: b :: rest).getD 0 [])
          ((a :: b :: rest).getD (min 1 ((a :: b :: rest).length - 1)) []) = hashPair a b := by
      have : min 1 ((a :: b :: rest).length - 1) = 1 := by
        simp only [List.length_cons]
        omega
      rw [this]
      rfl
    rw [hhead]
    have htail :
        ((List.range ((rest.length + 1) / 2)).map Nat.succ).map (fun i =>
          hashPair ((a :: b :: rest).getD (2 * i) [])
            ((a :: b :: rest).getD (min (2 * i + 1) ((a :: b :: rest).length - 1)) [])) =
        referenceLevel rest := by
      rw [List.map_map]
      unfold referenceLevel
      apply List.map_congr_left
      intro j hj
      simp only [List.mem_range] at hj
      simp only [Function.comp_apply, Nat.succ_eq_add_one]
      have h2j : 2 * (j + 1) = 2 * j + 2 := by ring
      have hrest_ne : rest ≠ [] := by
        intro hc
        subst hc
        simp at hj
      have hR : 1 ≤ rest.length := List.length_pos.mpr hrest_ne
      have hmin : min (2 * j + 2 + 1) ((a :: b :: rest).length - 1) =
          min (2 * j + 1) (rest.length - 1) + 2 := by
        simp only [List.length_cons]
        omega
      rw [h2j, hmin]
      have g1 : (a :: b :: rest).getD (2 * j + 2) [] = rest.getD (2 * j) [] := rfl
      have g2 : (a :: b :: rest).getD (min (2 * j + 1) (rest.length - 1) + 2) [] =
          rest.getD (min (2 * j + 1) (rest.length - 1)) [] := rfl
      rw [g1, g2]
    rw [htail, referenceLevel_eq_pairUp rest]
    rfl

theorem buildTreeAux_fst_eq_referenceRootAux (fuel : Nat) (st : Store) (l : List (List Nat)) :
    (buildTreeAux st l fuel).map Prod.fst = referenceRootAux l fuel := by
  induction fuel generalizing st l with
  | zero => rfl
  | succ fuel ih =>
    match l with
    | [] => rfl
    | [x] => rfl
    | a :: b :: rest =>
      have hL : buildTreeAux st (a :: b :: rest) (fuel + 1) =
          buildTreeAux (storePutMany st (levelWrites (a :: b :: rest)))
            (pairUp (a :: b :: rest)) fuel := rfl
      have hR : referenceRootAux (a :: b :: rest) (fuel + 1) =
          referenceRootAux (referenceLevel (a :: b :: rest)) fuel := rfl
      rw [hL, hR, ih, referenceLevel_eq_pairUp]

theorem buildTreeAux_isSome (fuel : Nat) (st : Store) (l : List (List Nat))
    (hne : l ≠ []) (hfuel : l.length ≤ fuel) :
    ∃ r st2, buildTreeAux st l fuel = some (r, st2) := by
  induction fuel generalizing st l with
  | zero =>
    exfalso
    have := List.length_pos.mpr hne
    omega
  | succ fuel ih =>
    match l with
    | [x] => exact ⟨x, st, rfl⟩
    | a :: b :: rest =>
      have hlen : (pairUp (a :: b :: rest)).length ≤ fuel := by
        rw [pairUp_length]
        simp only [List.length_cons] at hfuel ⊢
        omega
      obtain ⟨r, st2, hr⟩ := ih (storePutMany st (levelWrites (a :: b :: rest)))
        (pairUp (a :: b :: rest)) (pairUp_ne_nil (by simp)) hlen
      exact ⟨r, st2, hr⟩

theorem referenceRootAux_length {l : List (List Nat)} {fuel : Nat} {r : List Nat}
    (hl : ∀ x ∈ l, x.length = 32) (h : referenceRootAux l fuel = some r) : r.length = 32 := by
  induction fuel generalizing l with
  | zero => simp [referenceRootAux] at h
  | succ fuel ih =>
    match l with
    | [] => simp [referenceRootAux] at h
    | [x] =>
      simp only [referenceRootAux, Option.some.injEq] at h
      subst h
      exact hl _ (by simp)
    | a :: b :: rest =>
      have : referenceRootAux (referenceLevel (a :: b :: rest)) fuel = some r := h
      exact ih (by rw [referenceLevel_eq_pairUp]; exact pairUp_mem_length hl) this

end Merkle

namespace Merkle

theorem referenceRoot_three (a b c : List Nat) :
    referenceMerkleRoot [a, b, c] = some (hashPair (hashPair a b) (hashPair c c)) := by
  show referenceRootAux [a, b, c] 4 = _
  have h1 : referenceRootAux [a, b, c] 4 = referenceRootAux (referenceLevel [a, b, c]) 3 := rfl
  rw [h1, referenceLevel_eq_pairUp]
  show referenceRootAux [hashPair a b, hashPair c c] 3 = _
  have h2 : referenceRootAux [hashPair a b, hashPair c c] 3 =
      referenceRootAux (referenceLevel [hashPair a b, hashPair c c]) 2 := rfl
  rw [h2, referenceLevel_eq_pairUp]
  rfl

/-- C6: for every non-empty ordered list of 32-byte txids,
`BuildSubtreeMerkleTree` succeeds and its root digest equals the reference
Bitcoin merkle algorithm with odd-duplication at every level; in particular
for any 3-leaf list `[a, b, c]` the raw root is
`dSHA(dSHA(a||b) || dSHA(c||c))`. -/
theorem C6_buildTree_matches_reference (st : Store) (txids : List (List Nat))
    (hne : txids ≠ []) (hlen : ∀ t ∈ txids, t.length = 32) :
    ∃ root st2, BuildSubtreeMerkleTree st txids = some (root, st2) ∧
      merkleRaw root = referenceMerkleRoot txids ∧
      ∀ a b c, txids = [a, b, c] →
        merkleRaw root = some (hashPair (hashPair a b) (hashPair c c)) := by
  match txids with
  | [t] =>
    refine ⟨wrapMerkleHash t, st, rfl, ?_, ?_⟩
    · rw [merkleRaw_wrap (hlen t (by simp))]
      rfl
    · intro a b c hc
      simp at hc
  | x :: y :: rest =>
    obtain ⟨r, st2, hbuild⟩ :=
      buildTreeAux_isSome ((x :: y :: rest).length + 1) st (x :: y :: rest) (by simp) (by omega)
    have hroot : BuildSubtreeMerkleTree st (x :: y :: rest) = some (wrapMerkleHash r, st2) := by
      show ((buildTreeAux st (x :: y :: rest) ((x :: y :: rest).length + 1)).map
        (fun rs => (wrapMerkleHash rs.1, rs.2))) = _
      rw [hbuild]
      rfl
    have href : referenceMerkleRoot (x :: y :: rest) = some r := by
      have := buildTreeAux_fst_eq_referenceRootAux ((x :: y :: rest).length + 1) st (x :: y :: rest)
      rw [hbuild] at this
      exact this.symm
    have hrlen : r.length = 32 := referenceRootAux_length hlen href
    refine ⟨wrapMerkleHash r, st2, hroot, ?_, ?_⟩
    · rw [merkleRaw_wrap hrlen, href]
    · intro a b c hc
      rw [merkleRaw_wrap hrlen]
      have := referenceRoot_three a b c
      rw [← hc, href] at this
      exact this

/-- Witness for C6 at a concrete 3-leaf input. -/
theorem C6_buildTree_matches_reference_witness :
    ∃ root st2,
      BuildSubtreeMerkleTree []
        [List.replicate 32 1, List.replicate 32 2, List.replicate 32 3] = some (root, st2) ∧
      merkleRaw root =
        referenceMerkleRoot [List.replicate 32 1, List.replicate 32 2, List.replicate 32 3] ∧
      ∀ a b c,
        [List.replicate 32 1, List.replicate 32 2, List.replicate 32 3] = [a, b, c] →
        merkleRaw root = some (hashPair (hashPair a b) (hashPair c c)) :=
  C6_buildTree_matches_reference [] _ (by decide) (by decide)

end Merkle

namespace Messages

/-- The three outcomes of `messages.FetchMissingSubtreeTransactions`: no
request when nothing is missing, the subtree-optimized bulk POST, or the
scattered by-txid POST. -/
inductive FetchPath where
  | noRequest : FetchPath
  | bulk : FetchPath
  | scatter : FetchPath
deriving DecidableEq, Repr

/-- Mirrors the endpoint selection in
`messages.FetchMissingSubtreeTransactions`: return early when no txids are
missing, otherwise compare `missRate = len(missing)/len(all)` against 0.7.
The Go code computes the ratio in `float64`; it is modelled here as an exact
rational, which agrees with the float comparison for all list lengths that
arise (the two can only differ when the list length exceeds 2^53). -/
def fetchStrategy (allCount missingCount : Nat) : FetchPath :=
  if missingCount = 0 then .noRequest
  else if (missingCount : ℚ) / (allCount : ℚ) > 7 / 10 then .bulk
  else .scatter

/-- C9: with a non-empty missing list, the bulk endpoint is selected exactly
when `missing/all > 0.70`, and the scattered endpoint is selected otherwise
(equivalently, bulk exactly when `10*missing > 7*all` over the integers). -/
theorem C9_fetchStrategy_threshold (a m : Nat) (h1 : 1 ≤ m) (h2 : m ≤ a) :
    (fetchStrategy a m = .bulk ↔ 10 * m > 7 * a) ∧
    (fetchStrategy a m = .scatter ↔ ¬ 10 * m > 7 * a) := by
  have ha : 0 < a := by omega
  have hm0 : m ≠ 0 := by omega
  have haQ : (0 : ℚ) < (a : ℚ) := by exact_mod_cast ha
  have hiff : ((m : ℚ) / (a : ℚ) > 7 / 10) ↔ 10 * m > 7 * a := by
    rw [gt_iff_lt, div_lt_div_iff₀ (by norm_num) haQ]
    constructor
    · intro h
      have : (7 * a : ℚ) < (10 * m : ℚ) := by linarith
      exact_mod_cast this
    · intro h
      have : (7 * a : ℚ) < (10 * m : ℚ) := by exact_mod_cast h
      push_cast at this
      linarith
  constructor
  · constructor
    · intro h
      by_contra hc
      have : fetchStrategy a m = .scatter := by
        unfold fetchStrategy
        rw [if_neg hm0, if_neg (by rw [hiff]; exact hc)]
      rw [this] at h
      exact absurd h (by simp)
    · intro h
      unfold fetchStrategy
      rw [if_neg hm0, if_pos (hiff.mpr h)]
  · constructor
    · intro h
      by_contra hc
      have : fetchStrategy a m = .bulk := by
        unfold fetchStrategy
        rw [if_neg hm0, if_pos (hiff.mpr (by omega))]
      rw [this] at h
      exact absurd h (by simp)
    · intro h
      unfold fetchStrategy
      rw [if_neg hm0, if_neg (by rw [hiff]; exact h)]

/-- Witness for C9: 10 txids with 8 missing selects the bulk path, 10 txids
with 2 missing selects the scatter path. -/
theorem C9_fetchStrategy_threshold_witness :
    fetchStrategy 10 8 = .bulk ∧ fetchStrategy 10 2 = .scatter :=
  ⟨((C9_fetchStrategy_threshold 10 8 (by norm_num) (by norm_num)).1).mpr (by norm_num),
   ((C9_fetchStrategy_threshold 10 2 (by norm_num) (by norm_num)).2).mpr (by norm_num)⟩

end Messages

namespace IndexNode

/-- Entry of the unified `indexnode.IndexNode` (8-byte-header format). -/
structure Entry where
  key : List Nat
  value : List Nat
  offset : Nat
deriving DecidableEq, Repr

/-- The unified `indexnode.IndexNode`: version, the three flag bits, the
fixed key/value sizes, the entry array and the raw data section. -/
structure Node where
  version : Nat
  hasData : Bool
  sortByData : Bool
  isRange : Bool
  keySize : Nat
  valueSize : Nat
  entries : List Entry
  dataSection : List Nat
deriving DecidableEq, Repr

/-- Mirrors `indexnode.NewIndexNode`. -/
def NewIndexNode (keySize valueSize : Nat) (hasData sortByData isRange : Bool) : Node :=
  { version := 1, hasData := hasData, sortByData := sortByData, isRange := isRange,
    keySize := keySize, valueSize := valueSize, entries := [], dataSection := [] }

/-- Mirrors `indexnode.IndexNode.AddEntry` with its validation. -/
def AddEntry (n : Node) (key value : List Nat) (dataOffset : Nat) : Option Node :=
  if n.keySize > 0 ∧ key.length ≠ n.keySize then none
  else if n.keySize = 0 ∧ key.length ≠ 0 then none
  else if value.length ≠ n.valueSize then none
  else if n.hasData = false ∧ dataOffset ≠ 0 then none
  else some { n with entries := n.entries ++ [⟨key, value, dataOffset⟩] }

/-- The flags byte written by `Marshal` (bit 0 `HAS_DATA`, bit 1
`SORT_BY_DATA`, bit 2 `IS_RANGE`). -/
def flagsByte (n : Node) : Nat :=
  (if n.hasData then 1 else 0) + (if n.sortByData then 2 else 0) + (if n.isRange then 4 else 0)

/-- Fixed per-entry stride: `key_size + value_size [+ 4]`. -/
def entStride (n : Node) : Nat := n.keySize + n.valueSize + (if n.hasData then 4 else 0)

/-- Serialization of one entry within `Marshal` (Go `copy` semantics
truncate or zero-pad). -/
def encodeEntry (n : Node) (e : Entry) : List Nat :=
  (if n.keySize > 0 then Bytes.copyInto n.keySize e.key else []) ++
  Bytes.copyInto n.valueSize e.value ++
  (if n.hasData then Bytes.be32 e.offset else [])

/-- Mirrors `indexnode.IndexNode.Marshal`: an empty node or more than 65535
entries fail; otherwise the 8-byte header, the fixed-stride entry array and
(when `HAS_DATA`) the data section. -/
def Marshal (n : Node) : Option (List Nat) :=
  if n.entries.length = 0 then none
  else if n.entries.length > 65535 then none
  else some
    (n.version :: flagsByte n ::
      (Bytes.be16 n.entries.length ++ Bytes.be16 n.keySize ++ [n.valueSize, 0] ++
       n.entries.flatMap (encodeEntry n) ++
       (if n.hasData then n.dataSection else [])))

/-- Mirrors `indexnode.Unmarshal`. -/
def Unmarshal (data : List Nat) : Option Node :=
  if data.length < 8 then none
  else
    let ver := data.getD 0 0
    if ver ≠ 1 then none
    else
      let flags := data.getD 1 0
      let hasData := flags &&& 1 != 0
      let sortByData := flags &&& 2 != 0
      let isRange := flags &&& 4 != 0
      let entryCount := Bytes.beNat ((data.drop 2).take 2)
      let keySize := Bytes.beNat ((data.drop 4).take 2)
      let valueSize := data.getD 6 0
      if entryCount = 0 then none
      else
        let esz := keySize + valueSize + (if hasData then 4 else 0)
        if data.length < 8 + entryCount * esz then none
        else
          some
            { version := ver, hasData := hasData, sortByData := sortByData, isRange := isRange,
              keySize := keySize, valueSize := valueSize,
              entries := (List.range entryCount).map (fun i =>
                let off := 8 + i * esz
                { key := if keySize > 0 then (data.drop off).take keySize else []
                  value := (data.drop (off + keySize)).take valueSize
                  offset := if hasData then Bytes.beNat ((data.drop (off + keySize + valueSize)).take 4) else 0 })
              dataSection :=
                if hasData ∧ data.length > 8 + entryCount * esz
                then data.drop (8 + entryCount * esz) else [] }

/-- Well-formedness of a node as enforced by the builder API
(`NewIndexNode` sets version 1; `AddEntry` validates key, value and offset
against the declared sizes and flags; the Go field types bound
`key_size < 2^16`, `value_size < 2^8`, `offset < 2^32`; a node without a
data section flag carries no data section). -/
def WF (n : Node) : Prop :=
  n.version = 1 ∧
  n.entries ≠ [] ∧
  n.entries.length ≤ 65535 ∧
  n.keySize < 65536 ∧
  n.valueSize < 256 ∧
  (∀ e ∈ n.entries,
    e.key.length = (if n.keySize = 0 then 0 else n.keySize) ∧
    e.value.length = n.valueSize ∧
    e.offset < 4294967296 ∧
    (n.hasData = false → e.offset = 0)) ∧
  (n.hasData = false → n.dataSection = [])

theorem addEntry_entry_shape {n n2 : Node} {key value : List Nat} {dataOffset : Nat}
    (h : AddEntry n key value dataOffset = some n2) :
    n2.entries = n.entries ++ [⟨key, value, dataOffset⟩] ∧
    key.length = (if n.keySize = 0 then 0 else n.keySize) ∧
    value.length = n.valueSize ∧
    (n.hasData = false → dataOffset = 0) := by
  unfold AddEntry at h
  by_cases h1 : n.keySize > 0 ∧ key.length ≠ n.keySize
  · simp [h1] at h
  · by_cases h2 : n.keySize = 0 ∧ key.length ≠ 0
    · simp [h1, h2] at h
    · by_cases h3 : value.length ≠ n.valueSize
      · simp [h1, h2, h3] at h
      · by_cases h4 : n.hasData = false ∧ dataOffset ≠ 0
        · simp [h1, h2, h3, h4] at h
        · simp only [if_neg h1, if_neg h2, if_neg h3, if_neg h4, Option.some.injEq] at h
          subst h
          refine ⟨rfl, ?_, not_not.mp h3, ?_⟩
          · by_cases hks : n.keySize = 0
            · rw [if_pos hks]
              by_contra hne
              exact h2 ⟨hks, hne⟩
            · rw [if_neg hks]
              by_contra hne
              exact h1 ⟨Nat.pos_of_ne_zero hks, hne⟩
          · intro hfd
            by_contra ho
            exact h4 ⟨hfd, ho⟩

end IndexNode

namespace IndexNode

theorem encodeEntry_length (n : Node) (e : Entry) : (encodeEntry n e).length = entStride n := by
  unfold encodeEntry entStride
  by_cases hks : n.keySize > 0 <;> by_cases hhd : n.hasData <;>
    simp [hks, hhd, Bytes.copyInto_length, Bytes.be32_length] <;>
    omega

theorem flatMap_encode_length (n : Node) (es : List Entry) :
    (es.flatMap (encodeEntry n)).length = es.length * entStride n := by
  induction es with
  | nil => simp
  | cons e rest ih =>
    simp only [List.flatMap_cons, List.length_append, ih, encodeEntry_length, List.length_cons]
    ring

theorem flatMap_encode_drop (n : Node) (es : List Entry) (i : Nat) (hi : i < es.length)
    (suffix : List Nat) :
    ((es.flatMap (encodeEntry n)) ++ suffix).drop (i * entStride n) =
      encodeEntry n (es.getD i ⟨[], [], 0⟩) ++
        ((es.drop (i + 1)).flatMap (encodeEntry n) ++ suffix) := by
  induction es generalizing i with
  | nil => simp at hi
  | cons e rest ih =>
    cases i with
    | zero => simp
    | succ j =>
      have hstep : (j + 1) * entStride n = (encodeEntry n e).length + j * entStride n := by
        rw [encodeEntry_length]
        ring
      rw [hstep]
      simp only [List.flatMap_cons, List.append_assoc]
      rw [List.drop_append (j * entStride n)]
      have := ih j (by simpa using hi)
      rw [this]
      rfl

theorem flags_decode (n : Node) :
    ((flagsByte n &&& 1 != 0) = n.hasData) ∧
    ((flagsByte n &&& 2 != 0) = n.sortByData) ∧
    ((flagsByte n &&& 4 != 0) = n.isRange) := by
  obtain ⟨ver, hd, sbd, ir, ks, vs, es, ds⟩ := n
  cases hd <;> cases sbd <;> cases ir <;>
    simp [flagsByte] <;> rfl

end IndexNode


namespace IndexNode

theorem decode_entry_head (n : Node) (e : Entry) (R : List Nat)
    (hk : e.key.length = (if n.keySize = 0 then 0 else n.keySize))
    (hv : e.value.length = n.valueSize)
    (ho : e.offset < 4294967296)
    (hoz : n.hasData = false → e.offset = 0) :
    ((if n.keySize > 0 then (encodeEntry n e ++ R).take n.keySize else []) = e.key) ∧
    (((encodeEntry n e ++ R).drop n.keySize).take n.valueSize = e.value) ∧
    ((if n.hasData = true then
        Bytes.beNat (((encodeEntry n e ++ R).drop (n.keySize + n.valueSize)).take 4)
      else 0) = e.offset) := by
  set kp := (if n.keySize > 0 then Bytes.copyInto n.keySize e.key else []) with hkp
  set vp := Bytes.copyInto n.valueSize e.value with hvp
  set op := (if n.hasData then Bytes.be32 e.offset else []) with hop
  have hkplen : kp.length = n.keySize := by
    by_cases h0 : n.keySize > 0
    · simp [hkp, h0, Bytes.copyInto_length]
    · simp [hkp, h0]
      omega
  have hvplen : vp.length = n.valueSize := Bytes.copyInto_length _ _
  have hshape : encodeEntry n e ++ R = kp ++ (vp ++ (op ++ R)) := by
    unfold encodeEntry
    rw [← hkp, ← hvp, ← hop]
    simp [List.append_assoc]
  have hdropks : (encodeEntry n e ++ R).drop n.keySize = vp ++ (op ++ R) := by
    rw [hshape, ← hkplen, List.drop_left]
  refine ⟨?_, ?_, ?_⟩
  · by_cases h0 : n.keySize > 0
    · rw [if_pos h0, hshape, ← hkplen, List.take_left]
      rw [hkp, if_pos h0]
      exact Bytes.copyInto_of_length_eq (by rw [hk, if_neg (by omega)])
    · rw [if_neg h0]
      have hz : n.keySize = 0 := by omega
      rw [hz, if_pos rfl] at hk
      exact (List.length_eq_zero.mp hk).symm
  · rw [hdropks, ← hvplen, List.take_left]
    exact Bytes.copyInto_of_length_eq hv
  · by_cases hhd : n.hasData
    · rw [if_pos hhd]
      have hdd : (encodeEntry n e ++ R).drop (n.keySize + n.valueSize) = op ++ R := by
        have : (encodeEntry n e ++ R).drop (n.keySize + n.valueSize) =
            ((encodeEntry n e ++ R).drop n.keySize).drop n.valueSize := by
          rw [List.drop_drop]
        rw [this, hdropks, ← hvplen, List.drop_left]
      rw [hdd]
      have hoplen : op = Bytes.be32 e.offset := by rw [hop, if_pos hhd]
      rw [hoplen]
      rw [show (4 : Nat) = (Bytes.be32 e.offset).length from (Bytes.be32_length _).symm,
        List.take_left]
      exact Bytes.be32_beNat ho
    · rw [if_neg (by simpa using hhd)]
      exact (hoz (by simpa using hhd)).symm

end IndexNode

namespace IndexNode

theorem unmarshal_marshal (n : Node) (h : WF n) {bs : List Nat}
    (hm : Marshal n = some bs) : Unmarshal bs = some n := by
  obtain ⟨hver, hne, hcnt, hks, hvs, hent, hds⟩ := h
  have hcnt0 : n.entries.length ≠ 0 := by
    intro hc
    exact hne (List.length_eq_zero.mp hc)
  have hbs : bs = n.version :: flagsByte n ::
      (Bytes.be16 n.entries.length ++ Bytes.be16 n.keySize ++ [n.valueSize, 0] ++
       n.entries.flatMap (encodeEntry n) ++
       (if n.hasData then n.dataSection else [])) := by
    unfold Marshal at hm
    rw [if_neg hcnt0, if_neg (by omega)] at hm
    exact (Option.some.injEq _ _ ▸ hm.symm)
  set flat := n.entries.flatMap (encodeEntry n) with hflat
  set tail := (if n.hasData then n.dataSection else []) with htail
  have hflatlen : flat.length = n.entries.length * entStride n := flatMap_encode_length n _
  have hexp : bs = n.version :: flagsByte n :: (n.entries.length / 256 % 256) ::
      (n.entries.length % 256) :: (n.keySize / 256 % 256) :: (n.keySize % 256) ::
      n.valueSize :: 0 :: (flat ++ tail) := by
    rw [hbs]
    simp [Bytes.be16, List.append_assoc]
  have hlenbs : bs.length = 8 + (flat.length + tail.length) := by
    rw [hexp]
    simp
    omega
  have hget0 : bs.getD 0 0 = n.version := by rw [hexp]; rfl
  have hget1 : bs.getD 1 0 = flagsByte n := by rw [hexp]; rfl
  have hget6 : bs.getD 6 0 = n.valueSize := by rw [hexp]; rfl
  have hdrop2 : (bs.drop 2).take 2 = Bytes.be16 n.entries.length := by
    rw [hexp]
    simp [Bytes.be16]
  have hdrop4 : (bs.drop 4).take 2 = Bytes.be16 n.keySize := by
    rw [hexp]
    simp [Bytes.be16]
  have hbeCnt : Bytes.beNat ((bs.drop 2).take 2) = n.entries.length := by
    rw [hdrop2]
    exact Bytes.be16_beNat (by omega)
  have hbeKs : Bytes.beNat ((bs.drop 4).take 2) = n.keySize := by
    rw [hdrop4]
    exact Bytes.be16_beNat (by omega)
  obtain ⟨hfd, hfs, hfr⟩ := flags_decode n
  have hesz : n.keySize + n.valueSize + (if n.hasData = true then 4 else 0) = entStride n := by
    unfold entStride
    cases n.hasData <;> simp
  have hdrop8k : ∀ k : Nat, bs.drop (8 + k) = (flat ++ tail).drop k := by
    intro k
    rw [← List.drop_drop, hexp]
    rfl
  have hentryAt : ∀ i, i < n.entries.length →
      bs.drop (8 + i * entStride n) =
        encodeEntry n (n.entries.getD i ⟨[], [], 0⟩) ++
          ((n.entries.drop (i + 1)).flatMap (encodeEntry n) ++ tail) := by
    intro i hi
    rw [hdrop8k]
    exact flatMap_encode_drop n _ i hi tail
  unfold Unmarshal
  rw [if_neg (by omega)]
  simp only [hget0, hget1, hget6, hbeCnt, hbeKs, hfd, hfs, hfr, hver]
  rw [if_neg (by omega)]
  rw [if_neg hcnt0]
  rw [hesz]
  rw [if_neg (by rw [hlenbs, hflatlen]; omega)]
  refine congrArg some ?_
  have hdsec : (if n.hasData = true ∧ bs.length > 8 + n.entries.length * entStride n
      then bs.drop (8 + n.entries.length * entStride n) else []) = n.dataSection := by
    by_cases hhd : n.hasData
    · have htail2 : tail = n.dataSection := by rw [htail, if_pos hhd]
      by_cases hdn : n.dataSection = []
      · rw [if_neg]
        · rw [hdn]
        · rintro ⟨-, hlen2⟩
          rw [hlenbs, hflatlen, htail2, hdn] at hlen2
          simp at hlen2
      · rw [if_pos ⟨hhd, by
          rw [hlenbs, hflatlen, htail2]
          have := List.length_pos.mpr hdn
          omega⟩]
        rw [hdrop8k, ← hflatlen, List.drop_left, htail2]
    · rw [if_neg (by rintro ⟨hc, -⟩; exact hhd hc)]
      exact (hds (by simpa using hhd)).symm
  have hentries :
      (List.range n.entries.length).map (fun i =>
        ({ key := if n.keySize > 0 then (bs.drop (8 + i * entStride n)).take n.keySize else []
           value := (bs.drop (8 + i * entStride n + n.keySize)).take n.valueSize
           offset := if n.hasData = true then
             Bytes.beNat ((bs.drop (8 + i * entStride n + n.keySize + n.valueSize)).take 4)
             else 0 } : Entry)) = n.entries := by
    apply List.ext_getElem
    · simp
    · intro i hi1 hi2
      simp only [List.getElem_map, List.getElem_range]
      have hilen : i < n.entries.length := by simpa using hi2
      have hmem : n.entries.getD i ⟨[], [], 0⟩ ∈ n.entries := by
        rw [List.getD_eq_getElem _ _ hilen]
        exact List.getElem_mem _
      obtain ⟨hk, hv, ho, hoz⟩ := hent (n.entries.getD i ⟨[], [], 0⟩) hmem
      have hL := hentryAt i hilen
      have hd1 : bs.drop (8 + i * entStride n + n.keySize) =
          (bs.drop (8 + i * entStride n)).drop n.keySize := by
        rw [List.drop_drop]
      have hd2 : bs.drop (8 + i * entStride n + n.keySize + n.valueSize) =
          (bs.drop (8 + i * entStride n)).drop (n.keySize + n.valueSize) := by
        rw [List.drop_drop]
        congr 1
        omega
      obtain ⟨e1, e2, e3⟩ := decode_entry_head n (n.entries.getD i ⟨[], [], 0⟩)
        ((n.entries.drop (i + 1)).flatMap (encodeEntry n) ++ tail) hk hv ho hoz
      rw [hd1, hd2, hL, e1, e2, e3]
      rw [List.getD_eq_getElem _ _ hilen]
  rw [hentries, hdsec]
  conv_rhs => rw [show n = ⟨n.version, n.hasData, n.sortByData, n.isRange, n.keySize,
    n.valueSize, n.entries, n.dataSection⟩ from rfl]
  rw [hver]

end IndexNode

namespace IndexNode

theorem marshal_of_wf (n : Node) (h : WF n) :
    Marshal n = some
      (n.version :: flagsByte n ::
        (Bytes.be16 n.entries.length ++ Bytes.be16 n.keySize ++ [n.valueSize, 0] ++
         n.entries.flatMap (encodeEntry n) ++
         (if n.hasData then n.dataSection else []))) := by
  obtain ⟨hver, hne, hcnt, hks, hvs, hent, hds⟩ := h
  have hcnt0 : n.entries.length ≠ 0 := by
    intro hc
    exact hne (List.length_eq_zero.mp hc)
  unfold Marshal
  rw [if_neg hcnt0, if_neg (by omega)]

/-- C5: for every IndexNode in the unified 8-byte-header format that is
buildable through the `AddEntry` API (captured by `WF`), decoding the
encoding succeeds and is the identity, and re-marshalling the decoded node
reproduces exactly the same byte string. -/
theorem C5_indexnode_roundtrip (n : Node) (h : WF n) :
    ∃ bs, Marshal n = some bs ∧ Unmarshal bs = some n ∧
      ∀ n2, Unmarshal bs = some n2 → Marshal n2 = some bs := by
  refine ⟨_, marshal_of_wf n h, unmarshal_marshal n h (marshal_of_wf n h), ?_⟩
  intro n2 h2
  have : n2 = n := by
    have := unmarshal_marshal n h (marshal_of_wf n h)
    rw [this] at h2
    exact (Option.some.inj h2).symm
  rw [this]
  exact marshal_of_wf n h

/-- Witness for C5 on a concrete two-entry node with a data section. -/
theorem C5_indexnode_roundtrip_witness :
    ∃ bs,
      Marshal ⟨1, true, false, false, 2, 1,
        [⟨[5, 6], [7], 8⟩, ⟨[9, 1], [2], 0⟩], [0, 0, 0, 3, 10, 11, 12]⟩ = some bs ∧
      Unmarshal bs = some ⟨1, true, false, false, 2, 1,
        [⟨[5, 6], [7], 8⟩, ⟨[9, 1], [2], 0⟩], [0, 0, 0, 3, 10, 11, 12]⟩ ∧
      ∀ n2, Unmarshal bs = some n2 →
        Marshal n2 = some bs :=
  C5_indexnode_roundtrip _ (by
    refine ⟨rfl, by decide, by decide, by decide, by decide, ?_, by decide⟩
    decide)

end IndexNode

namespace IndexNode

/-- Mirrors Go `sort.Search` (binary search for the least index in `[i, j)`
satisfying `f`, returning `j` when none does).  Fuel bounds the loop;
`fuel ≥ j - i` always suffices. -/
def sortSearchAux (f : Nat → Bool) (i j : Nat) : Nat → Nat
  | 0 => i
  | fuel + 1 =>
    if i < j then
      let h := (i + j) / 2
      if f h then sortSearchAux f i h fuel else sortSearchAux f (h + 1) j fuel
    else i

def sortSearch (nn : Nat) (f : Nat → Bool) : Nat := sortSearchAux f 0 nn nn

theorem sortSearchAux_le {f : Nat → Bool} {i j fuel : Nat} (hij : i ≤ j) :
    i ≤ sortSearchAux f i j fuel ∧ sortSearchAux f i j fuel ≤ j := by
  induction fuel generalizing i j with
  | zero => exact ⟨le_refl i, hij⟩
  | succ fuel ih =>
    unfold sortSearchAux
    by_cases hlt : i < j
    · rw [if_pos hlt]
      by_cases hf : f ((i + j) / 2)
      · rw [if_pos hf]
        have := ih (i := i) (j := (i + j) / 2) (by omega)
        omega
      · rw [if_neg hf]
        have := ih (i := (i + j) / 2 + 1) (j := j) (by omega)
        omega
    · rw [if_neg hlt]
      exact ⟨le_refl i, hij⟩

theorem sortSearch_le (nn : Nat) (f : Nat → Bool) : sortSearch nn f ≤ nn :=
  (sortSearchAux_le (Nat.zero_le nn)).2

theorem sortSearchAux_all_true {f : Nat → Bool} {i j fuel : Nat}
    (hall : ∀ k, i ≤ k → k < j → f k = true) : sortSearchAux f i j fuel = i := by
  induction fuel generalizing i j with
  | zero => rfl
  | succ fuel ih =>
    unfold sortSearchAux
    by_cases hlt : i < j
    · rw [if_pos hlt]
      rw [if_pos (hall _ (by omega) (by omega))]
      exact ih (fun k hk1 hk2 => hall k hk1 (by omega))
    · rw [if_neg hlt]

theorem sortSearch_all_true {nn : Nat} {f : Nat → Bool}
    (hall : ∀ k, k < nn → f k = true) : sortSearch nn f = 0 :=
  sortSearchAux_all_true (fun k _ hk2 => hall k hk2)

/-- Mirrors `indexnode.IndexNode.getDataAt`: read the 4-byte length prefix at
the given offset of the data section and return that many bytes; out-of-range
offsets yield nil. -/
def getDataAt (n : Node) (offset : Nat) : List Nat :=
  if offset = 0 ∨ n.dataSection.length ≤ offset then []
  else if n.dataSection.length < offset + 4 then []
  else
    let len := Bytes.beNat ((n.dataSection.drop offset).take 4)
    if n.dataSection.length < offset + 4 + len then []
    else (n.dataSection.drop (offset + 4)).take len

/-- The comparison key `FindRange` uses for entry `i`: the referenced data
when `SORT_BY_DATA` is set, the entry key otherwise. -/
def rangeCmpKey (n : Node) (i : Nat) : List Nat :=
  if n.sortByData then getDataAt n ((n.entries.getD i ⟨[], [], 0⟩).offset)
  else (n.entries.getD i ⟨[], [], 0⟩).key

/-- Mirrors `indexnode.IndexNode.FindRange`: binary-search the first entry
whose comparison key exceeds the search key, step back one entry, and return
that entry's value. -/
def FindRange (n : Node) (searchKey : List Nat) : Option (List Nat) :=
  if n.isRange = false then none
  else
    let idx0 := sortSearch n.entries.length
      (fun i => decide (Bytes.bytesCompare (rangeCmpKey n i) searchKey > 0))
    let idx := if idx0 > 0 then idx0 - 1 else idx0
    if idx < n.entries.length then some ((n.entries.getD idx ⟨[], [], 0⟩).value) else none

/-- C10: on a range-mode node with at least one entry, `FindRange` never
returns absent — it always returns the value of some entry; and when the node
is key-sorted (the range-node invariant) and the search key orders strictly
below the first entry's range-start boundary, the first entry's value is
returned. -/
theorem C10_findRange_total (n : Node) (searchKey : List Nat)
    (hr : n.isRange = true) (hne : n.entries ≠ []) :
    (∃ e ∈ n.entries, FindRange n searchKey = some e.value) ∧
    (n.sortByData = false →
      n.entries.Pairwise (fun a b => Bytes.bcLe a.key b.key) →
      ∀ e0, n.entries.head? = some e0 →
        Bytes.bytesCompare e0.key searchKey > 0 →
        FindRange n searchKey = some e0.value) := by
  have hlen : 0 < n.entries.length := List.length_pos.mpr hne
  have hnr : ¬ n.isRange = false := by rw [hr]; simp
  constructor
  · unfold FindRange
    rw [if_neg hnr]
    set idx0 := sortSearch n.entries.length
      (fun i => decide (Bytes.bytesCompare (rangeCmpKey n i) searchKey > 0)) with hidx0
    have hidx0le : idx0 ≤ n.entries.length := sortSearch_le _ _
    set idx := if idx0 > 0 then idx0 - 1 else idx0 with hidx
    have hidxlt : idx < n.entries.length := by
      rw [hidx]
      by_cases h0 : idx0 > 0
      · rw [if_pos h0]
        omega
      · rw [if_neg h0]
        omega
    rw [if_pos hidxlt]
    refine ⟨n.entries.getD idx ⟨[], [], 0⟩, ?_, rfl⟩
    rw [List.getD_eq_getElem _ _ hidxlt]
    exact List.getElem_mem _
  · intro hsbd hsorted e0 he0 hbelow
    unfold FindRange
    rw [if_neg hnr]
    obtain ⟨e0x, rest, hE⟩ : ∃ e0x rest, n.entries = e0x :: rest := by
      match hne2 : n.entries, hne with
      | x :: xs, _ => exact ⟨x, xs, rfl⟩
    have he0x : e0x = e0 := by
      rw [hE] at he0
      simpa using he0
    have hallmem : ∀ b ∈ rest, Bytes.bcLe e0x.key b.key := by
      have hs2 := hsorted
      rw [hE] at hs2
      exact (List.pairwise_cons.mp hs2).1
    have hall : ∀ k, k < n.entries.length →
        (fun i => decide (Bytes.bytesCompare (rangeCmpKey n i) searchKey > 0)) k = true := by
      intro k hk
      simp only [decide_eq_true_iff]
      have hck : rangeCmpKey n k = (n.entries.getD k ⟨[], [], 0⟩).key := by
        unfold rangeCmpKey
        rw [if_neg (by rw [hsbd]; simp)]
      rw [hck, hE]
      match k with
      | 0 =>
        show Bytes.bytesCompare e0x.key searchKey > 0
        rw [he0x]
        exact hbelow
      | j + 1 =>
        have hjlt : j < rest.length := by
          rw [hE] at hk
          simpa using hk
        have hmem : rest.getD j ⟨[], [], 0⟩ ∈ rest := by
          rw [List.getD_eq_getElem _ _ hjlt]
          exact List.getElem_mem _
        have hle := hallmem _ hmem
        show Bytes.bytesCompare ((rest.getD j ⟨[], [], 0⟩).key) searchKey > 0
        exact Bytes.bytesCompare_gt_of_le_of_gt hle (he0x ▸ hbelow)
    rw [sortSearch_all_true hall]
    simp only [gt_iff_lt, lt_self_iff_false, if_false]
    rw [if_pos hlen, hE]
    show some e0x.value = some e0.value
    rw [he0x]

end IndexNode

namespace IndexNode

/-- Witness for C10: a concrete sorted two-entry range node and a key below
the first boundary. -/
theorem C10_findRange_total_witness :
    (∃ e ∈ ([⟨[5], [100], 0⟩, ⟨[9], [101], 0⟩] : List Entry),
      FindRange ⟨1, false, false, true, 1, 1, [⟨[5], [100], 0⟩, ⟨[9], [101], 0⟩], []⟩ [3] =
        some e.value) ∧
    ((⟨1, false, false, true, 1, 1, [⟨[5], [100], 0⟩, ⟨[9], [101], 0⟩], []⟩ : Node).sortByData = false →
      ([⟨[5], [100], 0⟩, ⟨[9], [101], 0⟩] : List Entry).Pairwise (fun a b => Bytes.bcLe a.key b.key) →
      ∀ e0, ([⟨[5], [100], 0⟩, ⟨[9], [101], 0⟩] : List Entry).head? = some e0 →
        Bytes.bytesCompare e0.key [3] > 0 →
        FindRange ⟨1, false, false, true, 1, 1, [⟨[5], [100], 0⟩, ⟨[9], [101], 0⟩], []⟩ [3] =
          some e0.value) :=
  C10_findRange_total
    ⟨1, false, false, true, 1, 1, [⟨[5], [100], 0⟩, ⟨[9], [101], 0⟩], []⟩ [3]
    (by decide) (by decide)

end IndexNode

namespace IndexNodeV0

/-- Entry of the legacy mode-based `indexnode.IndexNode` (the version the
tree builder links against): a variable-length key, a 32-byte child hash and
optional per-entry data. -/
structure V0Entry where
  key : List Nat
  childHash : List Nat
  data : List Nat
deriving DecidableEq, Repr

/-- The legacy `indexnode.IndexNode`: a mode bitmask (bit 0 pointer keys,
bit 1 has data), the fixed key size for pointer modes, and the entries. -/
structure V0Node where
  mode : Nat
  fixedKeySize : Nat
  entries : List V0Entry
deriving DecidableEq, Repr

/-- Mirrors the legacy `indexnode.NewIndexNode` (mode 0: value keys, no data). -/
def v0NewIndexNode : V0Node := ⟨0, 0, []⟩

/-- Mirrors `indexnode.NewFixedKeyIndexNodeWithData` (mode 3). -/
def v0NewFixedKeyIndexNodeWithData (keySize : Nat) : V0Node := ⟨3, keySize, []⟩

/-- Mirrors the legacy `indexnode.IndexNode.AddEntry` validation. -/
def v0AddEntry (n : V0Node) (key childHash data : List Nat) : Option V0Node :=
  if childHash.length ≠ 32 then none
  else if key.length = 0 then none
  else if (n.mode &&& 1 ≠ 0) ∧ key.length ≠ n.fixedKeySize then none
  else if (n.mode &&& 1 = 0) ∧ key.length > 1048576 then none
  else if (n.mode &&& 2 = 0) ∧ data.length > 0 then none
  else some { n with entries := n.entries ++ [⟨key, childHash, data⟩] }

/-- Per-entry size in the legacy value-key layout:
`key_length(4) + key + child_hash(32) [+ data_length(4) + data]`. -/
def v0EntrySizeValue (hasData : Bool) (e : V0Entry) : Nat :=
  4 + e.key.length + 32 + (if hasData then 4 + e.data.length else 0)

/-- The offset table of the legacy value-key layout (prefix sums of entry
sizes, truncated to uint32 as Go does). -/
def v0OffsetTable (hasData : Bool) (es : List V0Entry) (start : Nat) : List Nat :=
  (es.foldl (fun (acc : List Nat × Nat) e =>
    (acc.1 ++ Bytes.be32 (acc.2 % 4294967296), acc.2 + v0EntrySizeValue hasData e))
    ([], start)).1

/-- The data region of the legacy value-key layout. -/
def v0ValueBody (hasData : Bool) (es : List V0Entry) : List Nat :=
  es.flatMap (fun e =>
    Bytes.be32 e.key.length ++ e.key ++ Bytes.copyInto 32 e.childHash ++
    (if hasData then Bytes.be32 e.data.length ++ e.data else []))

/-- Mirrors `indexnode.IndexNode.marshalValueKey`. -/
def v0MarshalValueKey (n : V0Node) : List Nat :=
  let hasData := n.mode &&& 2 != 0
  1 :: n.mode ::
    (Bytes.be32 n.entries.length ++ [0, 0] ++
     v0OffsetTable hasData n.entries (8 + n.entries.length * 4) ++
     v0ValueBody hasData n.entries)

/-- Entry region and data region of the legacy pointer-key layout, threading
the running data offset exactly as `marshalPointerKey` does (entries with no
data record offset 0). -/
def v0PointerParts (ks : Nat) (hasData : Bool) : List V0Entry → Nat → (List Nat × List Nat)
  | [], _ => ([], [])
  | e :: rest, off =>
    let mine := Bytes.copyInto ks e.key ++ Bytes.copyInto 32 e.childHash ++
      (if hasData then
        (if e.data.length > 0 then Bytes.be32 (off % 4294967296) else Bytes.be32 0)
       else [])
    let nextOff := if hasData ∧ e.data.length > 0 then off + e.data.length else off
    let rec2 := v0PointerParts ks hasData rest nextOff
    (mine ++ rec2.1, (if hasData then e.data else []) ++ rec2.2)

/-- Mirrors `indexnode.IndexNode.marshalPointerKey`. -/
def v0MarshalPointerKey (n : V0Node) : List Nat :=
  let hasData := n.mode &&& 2 != 0
  let entrySize := n.fixedKeySize + 32 + (if hasData then 4 else 0)
  let parts := v0PointerParts n.fixedKeySize hasData n.entries (8 + n.entries.length * entrySize)
  1 :: n.mode ::
    (Bytes.be32 n.entries.length ++ Bytes.be16 n.fixedKeySize ++ parts.1 ++ parts.2)

/-- Mirrors the legacy `indexnode.IndexNode.Marshal` dispatch. -/
def v0Marshal (n : V0Node) : Option (List Nat) :=
  if n.entries.length = 0 then none
  else if n.entries.length > 100000 then none
  else if n.mode &&& 1 ≠ 0 then some (v0MarshalPointerKey n)
  else some (v0MarshalValueKey n)

end IndexNodeV0

namespace TreeBuilder

open IndexNodeV0

/-- A parsed index term (`cache.IndexTerm`). -/
structure IndexTerm where
  key : List Nat
  value : List Nat
deriving DecidableEq, Repr

/-- A transaction with its parsed terms (`treebuilder.TransactionWithTerms`). -/
structure TxWithTerms where
  txid : List Nat
  terms : List IndexTerm
deriving DecidableEq, Repr

/-- Model tag distinguishing which kind of object a `KVStore.Put` performed
by `BuildSubtreeIndex` carries (the Go store itself is untyped). -/
inductive WriteKind where
  | txidList : WriteKind
  | leafNode : WriteKind
  | rootNode : WriteKind
deriving DecidableEq, Repr

/-- One `store.Put(key, value)` performed by `BuildSubtreeIndex`. -/
structure TbWrite where
  kind : WriteKind
  key : List Nat
  value : List Nat
deriving DecidableEq, Repr

/-- The serialized TxidList of `storeTxIDList`: 4-byte big-endian count
followed by the 32-byte txids sorted ascending (Go `sort.Slice` with
`bytes.Compare`; ties are byte-identical txids, so any comparison sort
produces this unique result). -/
def txidListBytes (ts : List (List Nat)) : List Nat :=
  let sorted := List.insertionSort Bytes.bcLe ts
  Bytes.be32 sorted.length ++ sorted.flatMap (fun t => Bytes.copyInto 32 t)

/-- Mirrors `treebuilder.storeTxIDList`, parametrized by the BLAKE3 hash
(`lukechampine.com/blake3` is an external library; `b3` stands for its
`Sum256`).  Returns the raw 32-byte store key and the stored bytes. -/
def storeTxIDList (b3 : List Nat → List Nat) (ts : List (List Nat)) : List Nat × List Nat :=
  (b3 (txidListBytes ts), txidListBytes ts)

/-- Append a txid under a value inside one key group, preserving first-seen
value order and txid append order (the deterministic part of the Go maps). -/
def upsertValue (vals : List (List Nat × List (List Nat))) (v txid : List Nat) :
    List (List Nat × List (List Nat)) :=
  match vals with
  | [] => [(v, [txid])]
  | (v0, ts) :: rest =>
    if v0 = v then (v0, ts ++ [txid]) :: rest else (v0, ts) :: upsertValue rest v txid

/-- Append a txid under `(key, value)`, preserving first-seen key order. -/
def upsertKey (m : List (List Nat × List (List Nat × List (List Nat)))) (k v txid : List Nat) :
    List (List Nat × List (List Nat × List (List Nat))) :=
  match m with
  | [] => [(k, [(v, [txid])])]
  | (k0, vals) :: rest =>
    if k0 = k then (k0, upsertValue vals v txid) :: rest else (k0, vals) :: upsertKey rest k v txid

/-- Step 1 of `BuildSubtreeIndex`: group transactions as
`key → value → txid list`.  The Go code stores this in nested maps whose
iteration order is unspecified; the model keeps keys and values in
first-encounter order, which fixes one admissible iteration order (the
per-write facts proved below are independent of that order). -/
def groupTerms (txs : List TxWithTerms) : List (List Nat × List (List Nat × List (List Nat))) :=
  txs.foldl (fun m tx => tx.terms.foldl (fun m term => upsertKey m term.key term.value tx.txid) m) []

/-- Ordering of value groups by value bytes (Go `sort.Strings` over the
value strings compares byte-wise). -/
def valLe (a b : List Nat × List (List Nat)) : Prop := Bytes.bcLe a.1 b.1

instance : DecidableRel valLe := fun a b => inferInstanceAs (Decidable (Bytes.bcLe a.1 b.1))

/-- Ordering of `(key, leaf hash)` pairs by key bytes (Go `sort.Strings`). -/
def keyLe (a b : List Nat × List Nat) : Prop := Bytes.bcLe a.1 b.1

instance : DecidableRel keyLe := fun a b => inferInstanceAs (Decidable (Bytes.bcLe a.1 b.1))

/-- The inner loop of step 2: for each `(value, txids)` group in sorted
order, store the txid list and add `value → txid_list_hash` to the leaf
node; abort on the first `AddEntry` error, keeping the writes already
performed (the content store has no rollback). -/
def leafFold (b3 : List Nat → List Nat) (leaf : V0Node)
    (vals : List (List Nat × List (List Nat))) : List TbWrite × Option V0Node :=
  match vals with
  | [] => ([], some leaf)
  | (v, ts) :: rest =>
    match v0AddEntry leaf v (storeTxIDList b3 ts).1 [] with
    | none => ([⟨.txidList, (storeTxIDList b3 ts).1, (storeTxIDList b3 ts).2⟩], none)
    | some leaf2 =>
      (⟨.txidList, (storeTxIDList b3 ts).1, (storeTxIDList b3 ts).2⟩ ::
        (leafFold b3 leaf2 rest).1,
       (leafFold b3 leaf2 rest).2)

/-- Build and store the leaf node for one key group (values sorted first, as
`sort.Strings` does). -/
def buildLeaf (b3 : List Nat → List Nat)
    (vals : List (List Nat × List (List Nat))) : List TbWrite × Option (List Nat) :=
  match (leafFold b3 v0NewIndexNode (List.insertionSort valLe vals)).2 with
  | none => ((leafFold b3 v0NewIndexNode (List.insertionSort valLe vals)).1, none)
  | some leaf =>
    match v0Marshal leaf with
    | none => ((leafFold b3 v0NewIndexNode (List.insertionSort valLe vals)).1, none)
    | some bytes =>
      ((leafFold b3 v0NewIndexNode (List.insertionSort valLe vals)).1 ++
        [⟨.leafNode, b3 bytes, bytes⟩], some (b3 bytes))

/-- Step 2 over all key groups, collecting `(key, leaf hash)` pairs. -/
def keysFold (b3 : List Nat → List Nat)
    (m : List (List Nat × List (List Nat × List (List Nat)))) :
    List TbWrite × Option (List (List Nat × List Nat)) :=
  match m with
  | [] => ([], some [])
  | (k, vals) :: rest =>
    match (buildLeaf b3 vals).2 with
    | none => ((buildLeaf b3 vals).1, none)
    | some lh =>
      ((buildLeaf b3 vals).1 ++ (keysFold b3 rest).1,
       (keysFold b3 rest).2.map (fun l => (k, lh) :: l))

/-- Step 3: add `key → leaf_hash` entries to the root node in sorted key
order. -/
def rootFold (root : V0Node) (pairs : List (List Nat × List Nat)) : Option V0Node :=
  match pairs with
  | [] => some root
  | (k, lh) :: rest =>
    match v0AddEntry root k lh [] with
    | none => none
    | some root2 => rootFold root2 rest

/-- Mirrors `treebuilder.BuildSubtreeIndex`, returning the sequence of
`store.Put` calls performed (in the model's fixed iteration order) and the
root hash on success.  All keys are raw 32-byte BLAKE3 digests
(`kvstore.Hash`), not multihashes. -/
def BuildSubtreeIndex (b3 : List Nat → List Nat) (txs : List TxWithTerms) :
    List TbWrite × Option (List Nat) :=
  if txs.length = 0 then ([], none)
  else
    match (keysFold b3 (groupTerms txs)).2 with
    | none => ((keysFold b3 (groupTerms txs)).1, none)
    | some pairs =>
      match rootFold v0NewIndexNode (List.insertionSort keyLe pairs) with
      | none => ((keysFold b3 (groupTerms txs)).1, none)
      | some root =>
        match v0Marshal root with
        | none => ((keysFold b3 (groupTerms txs)).1, none)
        | some bytes =>
          ((keysFold b3 (groupTerms txs)).1 ++ [⟨.rootNode, b3 bytes, bytes⟩],
           some (b3 bytes))

/-- Modelled from the spec: `lukechampine.com/blake3` Sum256 is an external
library producing a 32-byte digest.  Only determinism and the 32-byte output
length are relevant to the claims below (which are proved for every 32-byte
hash function); concrete instances use this simple 32-byte fingerprint. -/
def blake3Model (data : List Nat) : List Nat :=
  (List.range 32).map (fun i =>
    data.foldl (fun a b => (a * 131 + b + i + 1) % 256) ((i + data.length) % 256))

theorem blake3Model_length (data : List Nat) : (blake3Model data).length = 32 := by
  simp [blake3Model]

end TreeBuilder

namespace TreeBuilder

/-- Every write is content-addressed by the raw BLAKE3 digest of its value,
and TxidList writes carry a serialized txid list. -/
def writeOk (b3 : List Nat → List Nat) (w : TbWrite) : Prop :=
  w.key = b3 w.value ∧ (w.kind = .txidList → ∃ ts, w.value = txidListBytes ts)

theorem leafFold_writes (b3 : List Nat → List Nat) (leaf : IndexNodeV0.V0Node)
    (vals : List (List Nat × List (List Nat))) :
    ∀ w ∈ (leafFold b3 leaf vals).1, writeOk b3 w := by
  induction vals generalizing leaf with
  | nil =>
    intro w hw
    simp [leafFold] at hw
  | cons p rest ih =>
    obtain ⟨v, ts⟩ := p
    intro w hw
    unfold leafFold at hw
    cases hA : IndexNodeV0.v0AddEntry leaf v (storeTxIDList b3 ts).1 [] with
    | none =>
      rw [hA] at hw
      simp only [List.mem_singleton] at hw
      subst hw
      exact ⟨rfl, fun _ => ⟨ts, rfl⟩⟩
    | some leaf2 =>
      rw [hA] at hw
      simp only [List.mem_cons] at hw
      rcases hw with rfl | hw2
      · exact ⟨rfl, fun _ => ⟨ts, rfl⟩⟩
      · exact ih leaf2 w hw2

theorem buildLeaf_writes (b3 : List Nat → List Nat)
    (vals : List (List Nat × List (List Nat))) :
    ∀ w ∈ (buildLeaf b3 vals).1, writeOk b3 w := by
  intro w hw
  unfold buildLeaf at hw
  cases hR : (leafFold b3 IndexNodeV0.v0NewIndexNode (List.insertionSort valLe vals)).2 with
  | none =>
    rw [hR] at hw
    exact leafFold_writes b3 _ _ w hw
  | some leaf =>
    rw [hR] at hw
    simp only [] at hw
    cases hM : IndexNodeV0.v0Marshal leaf with
    | none =>
      rw [hM] at hw
      exact leafFold_writes b3 _ _ w hw
    | some bytes =>
      rw [hM] at hw
      simp only [List.mem_append, List.mem_singleton] at hw
      rcases hw with hw1 | rfl
      · exact leafFold_writes b3 _ _ w hw1
      · exact ⟨rfl, fun hk => by simp at hk⟩

theorem keysFold_writes (b3 : List Nat → List Nat)
    (m : List (List Nat × List (List Nat × List (List Nat)))) :
    ∀ w ∈ (keysFold b3 m).1, writeOk b3 w := by
  induction m with
  | nil =>
    intro w hw
    simp [keysFold] at hw
  | cons p rest ih =>
    obtain ⟨k, vals⟩ := p
    intro w hw
    unfold keysFold at hw
    cases hR : (buildLeaf b3 vals).2 with
    | none =>
      rw [hR] at hw
      exact buildLeaf_writes b3 vals w hw
    | some lh =>
      rw [hR] at hw
      simp only [List.mem_append] at hw
      rcases hw with hw1 | hw2
      · exact buildLeaf_writes b3 vals w hw1
      · exact ih w hw2

theorem buildSubtreeIndex_writes (b3 : List Nat → List Nat) (txs : List TxWithTerms) :
    ∀ w ∈ (BuildSubtreeIndex b3 txs).1, writeOk b3 w := by
  intro w hw
  unfold BuildSubtreeIndex at hw
  by_cases hz : txs.length = 0
  · rw [if_pos hz] at hw
    simp at hw
  · rw [if_neg hz] at hw
    cases hR : (keysFold b3 (groupTerms txs)).2 with
    | none =>
      rw [hR] at hw
      exact keysFold_writes b3 _ w hw
    | some pairs =>
      rw [hR] at hw
      simp only [] at hw
      cases hRt : rootFold IndexNodeV0.v0NewIndexNode (List.insertionSort keyLe pairs) with
      | none =>
        rw [hRt] at hw
        exact keysFold_writes b3 _ w hw
      | some root =>
        rw [hRt] at hw
        simp only [] at hw
        cases hM : IndexNodeV0.v0Marshal root with
        | none =>
          rw [hM] at hw
          exact keysFold_writes b3 _ w hw
        | some bytes =>
          rw [hM] at hw
          simp only [List.mem_append, List.mem_singleton] at hw
          rcases hw with hw1 | rfl
          · exact keysFold_writes b3 _ w hw1
          · exact ⟨rfl, fun hk => by simp at hk⟩

end TreeBuilder

namespace Merkle

theorem storePutMany_append (st : Store) (ws1 ws2 : List (List Nat × List Nat)) :
    storePutMany (storePutMany st ws1) ws2 = storePutMany st (ws1 ++ ws2) := by
  unfold storePutMany
  rw [List.foldl_append]

theorem levelWrites_shape (l : List (List Nat)) :
    ∀ kv ∈ levelWrites l, ∃ a b, kv = (wrapMerkleHash (hashPair a b), a ++ b) := by
  match l with
  | [] => simp [levelWrites]
  | [x] =>
    intro kv hkv
    simp only [levelWrites, List.mem_singleton] at hkv
    exact ⟨x, x, hkv⟩
  | a :: b :: rest =>
    intro kv hkv
    simp only [levelWrites, List.mem_cons] at hkv
    rcases hkv with rfl | hkv
    · exact ⟨a, b, rfl⟩
    · exact levelWrites_shape rest kv hkv

theorem buildTreeAux_writes_shape (fuel : Nat) (st : Store) (l : List (List Nat))
    {r : List Nat} {st2 : Store} (h : buildTreeAux st l fuel = some (r, st2)) :
    ∃ ws, st2 = storePutMany st ws ∧
      ∀ kv ∈ ws, ∃ a b, kv = (wrapMerkleHash (hashPair a b), a ++ b) := by
  induction fuel generalizing st l with
  | zero => simp [buildTreeAux] at h
  | succ fuel ih =>
    match l with
    | [] => simp [buildTreeAux] at h
    | [x] =>
      simp only [buildTreeAux, Option.some.injEq, Prod.mk.injEq] at h
      refine ⟨[], ?_, by simp⟩
      rw [← h.2]
      rfl
    | a :: b :: rest =>
      have h2 : buildTreeAux (storePutMany st (levelWrites (a :: b :: rest)))
          (pairUp (a :: b :: rest)) fuel = some (r, st2) := h
      obtain ⟨ws2, hst2, hshape⟩ := ih _ _ h2
      refine ⟨levelWrites (a :: b :: rest) ++ ws2, ?_, ?_⟩
      · rw [hst2, storePutMany_append]
      · intro kv hkv
        rcases List.mem_append.mp hkv with h1 | h1
        · exact levelWrites_shape _ kv h1
        · exact hshape kv h1

theorem wrapMerkleHash_length {d : List Nat} (hd : d.length = 32) :
    (wrapMerkleHash d).length = 34 := by
  simp [wrapMerkleHash, hd]

end Merkle

namespace TreeBuilder

/-- C2 (amended): the merkle tree builder stores every node under a 34-byte
`0x56 0x20` multihash key, but every object written by
`TreeBuilder.BuildSubtreeIndex` (TxidLists, leaf IndexNodes, root
IndexNodes) is stored under the raw 32-byte BLAKE3 digest of its bytes —
not under a 34-byte multihash. -/
theorem C2_contentstore_key_shapes (b3 : List Nat → List Nat)
    (hb3 : ∀ x, (b3 x).length = 32) (txs : List TxWithTerms)
    (st st2 : Merkle.Store) (l : List (List Nat)) (fuel : Nat) (r : List Nat)
    (hbt : Merkle.buildTreeAux st l fuel = some (r, st2)) :
    (∃ ws, st2 = Merkle.storePutMany st ws ∧
      ∀ kv ∈ ws, kv.1.length = 34 ∧ kv.1.take 2 = [0x56, 0x20]) ∧
    (∀ w ∈ (BuildSubtreeIndex b3 txs).1, w.key = b3 w.value ∧ w.key.length = 32) := by
  constructor
  · obtain ⟨ws, hst2, hshape⟩ := Merkle.buildTreeAux_writes_shape fuel st l hbt
    refine ⟨ws, hst2, ?_⟩
    intro kv hkv
    obtain ⟨a, b, rfl⟩ := hshape kv hkv
    constructor
    · exact Merkle.wrapMerkleHash_length (Merkle.hashPair_length a b)
    · rfl
  · intro w hw
    obtain ⟨hkey, -⟩ := buildSubtreeIndex_writes b3 txs w hw
    refine ⟨hkey, ?_⟩
    rw [hkey]
    exact hb3 _

/-- Counterexample for C2 as stated: on a concrete one-transaction input the
first object persisted by `BuildSubtreeIndex` (its TxidList) is stored under
a 32-byte key, not a 34-byte `0x1e 0x20` multihash. -/
theorem C2_contentstore_key_shapes_cex :
    ∃ w ∈ (BuildSubtreeIndex blake3Model
      [⟨List.replicate 32 7, [⟨[107], [118]⟩]⟩]).1, w.key.length ≠ 34 := by
  decide

/-- C8 (amended): every TxidList persisted by `BuildSubtreeIndex` is
serialized as a 4-byte big-endian count followed by that many 32-byte txids
in ascending byte order, duplicates retained, and is stored under the raw
32-byte BLAKE3 digest of exactly those bytes. -/
theorem C8_txidlist_serialization (b3 : List Nat → List Nat)
    (hb3 : ∀ x, (b3 x).length = 32) (txs : List TxWithTerms) :
    ∀ w ∈ (BuildSubtreeIndex b3 txs).1, w.kind = .txidList →
      ∃ sorted : List (List Nat),
        List.Pairwise Bytes.bcLe sorted ∧
        w.value = Bytes.be32 sorted.length ++ sorted.flatMap (fun t => Bytes.copyInto 32 t) ∧
        (∀ t ∈ sorted, (Bytes.copyInto 32 t).length = 32) ∧
        w.key = b3 w.value ∧ w.key.length = 32 := by
  intro w hw hk
  obtain ⟨hkey, hts⟩ := buildSubtreeIndex_writes b3 txs w hw
  obtain ⟨ts, hval⟩ := hts hk
  refine ⟨List.insertionSort Bytes.bcLe ts, ?_, ?_, ?_, hkey, by rw [hkey]; exact hb3 _⟩
  · exact List.sorted_insertionSort Bytes.bcLe ts
  · rw [hval]
    rfl
  · intro t ht
    exact Bytes.copyInto_length 32 t

/-- Split a byte list into consecutive 32-byte txids (model-side decoder
used to state facts about stored TxidList bytes). -/
def chunks32Aux (l : List Nat) : Nat → List (List Nat)
  | 0 => []
  | fuel + 1 =>
    match l with
    | [] => []
    | _ => l.take 32 :: chunks32Aux (l.drop 32) fuel

/-- Decode a serialized TxidList body (skip the 4-byte count, then 32-byte
chunks). -/
def decodeTxidList (bytes : List Nat) : List (List Nat) :=
  chunks32Aux (bytes.drop 4) bytes.length

/-- Counterexample for C8 as stated: a transaction carrying the same term
twice produces a persisted TxidList whose decoded txids contain a duplicate,
contradicting the claimed absence of duplicates. -/
theorem C8_txidlist_serialization_cex :
    ∃ w ∈ (BuildSubtreeIndex blake3Model
      [⟨List.replicate 32 9, [⟨[107], [118]⟩, ⟨[107], [118]⟩]⟩]).1,
      w.kind = .txidList ∧ ¬ (decodeTxidList w.value).Nodup := by
  decide

end TreeBuilder

namespace TreeBuilder

set_option maxRecDepth 1000000 in
/-- Witness for C2 on a concrete merkle build and a concrete index build. -/
theorem C2_contentstore_key_shapes_witness :
    (∃ ws, ([(Merkle.wrapMerkleHash (Merkle.hashPair (List.replicate 32 1) (List.replicate 32 2)),
        List.replicate 32 1 ++ List.replicate 32 2)] : Merkle.Store) =
        Merkle.storePutMany [] ws ∧
      ∀ kv ∈ ws, kv.1.length = 34 ∧ kv.1.take 2 = [0x56, 0x20]) ∧
    (∀ w ∈ (BuildSubtreeIndex blake3Model [⟨List.replicate 32 7, [⟨[107], [118]⟩]⟩]).1,
      w.key = blake3Model w.value ∧ w.key.length = 32) :=
  C2_contentstore_key_shapes blake3Model blake3Model_length
    [⟨List.replicate 32 7, [⟨[107], [118]⟩]⟩] []
    [(Merkle.wrapMerkleHash (Merkle.hashPair (List.replicate 32 1) (List.replicate 32 2)),
      List.replicate 32 1 ++ List.replicate 32 2)]
    [List.replicate 32 1, List.replicate 32 2] 3
    (Merkle.hashPair (List.replicate 32 1) (List.replicate 32 2))
    (by decide)

set_option maxRecDepth 1000000 in
/-- Witness for C8 at the concrete TxidList write of a one-transaction
index build. -/
theorem C8_txidlist_serialization_witness :
    ∃ sorted : List (List Nat),
      List.Pairwise Bytes.bcLe sorted ∧
      (txidListBytes [List.replicate 32 9] : List Nat) =
        Bytes.be32 sorted.length ++ sorted.flatMap (fun t => Bytes.copyInto 32 t) ∧
      (∀ t ∈ sorted, (Bytes.copyInto 32 t).length = 32) ∧
      (blake3Model (txidListBytes [List.replicate 32 9]) : List Nat) =
        blake3Model (txidListBytes [List.replicate 32 9]) ∧
      (blake3Model (txidListBytes [List.replicate 32 9])).length = 32 :=
  C8_txidlist_serialization blake3Model blake3Model_length
    [⟨List.replicate 32 9, [⟨[107], [118]⟩]⟩]
    ⟨.txidList, blake3Model (txidListBytes [List.replicate 32 9]),
      txidListBytes [List.replicate 32 9]⟩
    (by decide) (by decide)

end TreeBuilder

namespace Metadata

/-- Block status values of `metadata.BlockStatus`. -/
inductive BlockStatus where
  | main : BlockStatus
  | orphan : BlockStatus
  | pending : BlockStatus
deriving DecidableEq, Repr

/-- A row of the `blocks` table (`metadata.BlockMeta`).  `merkle_root` is
the primary key and `block_hash` carries a unique index. -/
structure BlockRow where
  height : Nat
  blockHash : List Nat
  merkleRoot : List Nat
  txCount : Nat
  status : BlockStatus
  timestamp : Int
deriving DecidableEq, Repr

/-- A row of the `subtrees` table (`metadata.SubtreeMeta`).  Primary key
`(merkle_root, subtree_index)`, declared `FOREIGN KEY (merkle_root)
REFERENCES blocks(merkle_root) ON DELETE CASCADE`. -/
structure SubtreeRow where
  merkleRoot : List Nat
  subtreeIndex : Nat
  subtreeMerkleRoot : List Nat
  txCount : Nat
  indexRoot : List Nat
  txTreeRoot : List Nat
deriving DecidableEq, Repr

/-- The relational state of the SQLite metadata store. -/
structure DB where
  blocks : List BlockRow
  subtrees : List SubtreeRow
deriving DecidableEq, Repr

def emptyDB : DB := ⟨[], []⟩

/-- The `fk` parameter models whether the SQLite connection enforces foreign
keys.  `sqlite.New` opens the database with `sql.Open("sqlite3", path)` and
never issues `PRAGMA foreign_keys = ON` (nor a `_foreign_keys` DSN option),
so the actual program runs with `fk = false` and the declared
`ON DELETE CASCADE` never fires; `fk = true` models the behaviour the
declared schema intends. -/
def subtreeConflict (cur : List SubtreeRow) (s : SubtreeRow) : Bool :=
  cur.any (fun s0 => s0.merkleRoot == s.merkleRoot && s0.subtreeIndex == s.subtreeIndex)

/-- Plain `INSERT INTO subtrees` of each row in order: a primary-key
conflict (or, with enforcement on, a missing parent block) fails the
transaction. -/
def insertSubtrees (fk : Bool) (blocks : List BlockRow) (cur : List SubtreeRow) :
    List SubtreeRow → Option (List SubtreeRow)
  | [] => some cur
  | s :: rest =>
    if subtreeConflict cur s then none
    else if fk && !(blocks.any (fun r => r.merkleRoot == s.merkleRoot)) then none
    else insertSubtrees fk blocks (cur ++ [s]) rest

/-- Mirrors `sqlite.Store.PutBlock`: one transaction performing
`INSERT OR REPLACE INTO blocks` (which deletes any row conflicting on the
`merkle_root` primary key or the `block_hash` unique index, cascading to
`subtrees` only when foreign keys are enforced) followed by plain
`INSERT INTO subtrees` for each subtree row.  `none` models the rolled-back
transaction: the caller's state is unchanged. -/
def putBlock (fk : Bool) (db : DB) (b : BlockRow) (sts : List SubtreeRow) : Option DB :=
  match insertSubtrees fk
      (db.blocks.filter
        (fun r => !(r.merkleRoot == b.merkleRoot || r.blockHash == b.blockHash)) ++ [b])
      (if fk then
        db.subtrees.filter (fun s =>
          !((db.blocks.filter
              (fun r => r.merkleRoot == b.merkleRoot || r.blockHash == b.blockHash)).any
            (fun r => r.merkleRoot == s.merkleRoot)))
       else db.subtrees)
      sts with
  | none => none
  | some subs2 =>
    some ⟨db.blocks.filter
        (fun r => !(r.merkleRoot == b.merkleRoot || r.blockHash == b.blockHash)) ++ [b],
      subs2⟩

/-- Mirrors `sqlite.Store.MarkOrphan`: flip every `status='main'` row at the
height to `'orphan'`. -/
def markOrphan (db : DB) (h : Nat) : DB :=
  ⟨db.blocks.map (fun r =>
    if r.height == h && r.status == BlockStatus.main then { r with status := .orphan } else r),
   db.subtrees⟩

/-- Mirrors `sqlite.Store.CleanupOrphans`: no-op when `current < depth`,
otherwise `DELETE FROM blocks WHERE status='orphan' AND height <= cutoff`;
the declared cascade removes the orphans' subtree rows only when foreign
keys are enforced. -/
def cleanupOrphans (fk : Bool) (db : DB) (current depth : Nat) : DB :=
  if current < depth then db
  else
    ⟨db.blocks.filter (fun r =>
      !(r.status == BlockStatus.orphan && decide (r.height ≤ current - depth))),
     if fk then
       db.subtrees.filter (fun s =>
         !((db.blocks.filter (fun r =>
             r.status == BlockStatus.orphan && decide (r.height ≤ current - depth))).any
           (fun r => r.merkleRoot == s.merkleRoot)))
     else db.subtrees⟩

/-- The metadata operations a client can issue. -/
inductive Op where
  | put : BlockRow → List SubtreeRow → Op
  | markOrphanAt : Nat → Op
  | cleanup : Nat → Nat → Op
deriving DecidableEq, Repr

/-- Apply one operation; a failed `PutBlock` transaction leaves the state
unchanged. -/
def applyOp (fk : Bool) (db : DB) : Op → DB
  | .put b sts => (putBlock fk db b sts).getD db
  | .markOrphanAt h => markOrphan db h
  | .cleanup cur depth => cleanupOrphans fk db cur depth

def run (fk : Bool) (db : DB) (ops : List Op) : DB := ops.foldl (applyOp fk) db

/-- At most one `status='main'` row per height. -/
def AtMostOneMain (db : DB) : Prop :=
  db.blocks.Pairwise (fun r r2 =>
    ¬(r.status = .main ∧ r2.status = .main ∧ r.height = r2.height))

instance : Decidable (AtMostOneMain db) :=
  inferInstanceAs (Decidable (List.Pairwise _ _))

/-- The discipline `BlockAssembler` follows: a main-status block is only
put at a height whose existing main rows it replaces (same merkle root or
block hash) — step 5 of the block flow calls `MarkOrphan` first otherwise. -/
def DisciplinedOp (db : DB) : Op → Prop
  | .put b2 _ => b2.status = .main →
      ∀ r ∈ db.blocks, r.status = .main → r.height = b2.height →
        (r.merkleRoot = b2.merkleRoot ∨ r.blockHash = b2.blockHash)
  | .markOrphanAt _ => True
  | .cleanup _ _ => True

instance : (op : Op) → Decidable (DisciplinedOp db op)
  | .put _ _ => inferInstanceAs (Decidable (_ → ∀ _ ∈ _, _))
  | .markOrphanAt _ => inferInstanceAs (Decidable True)
  | .cleanup _ _ => inferInstanceAs (Decidable True)

/-- Every operation in the sequence is disciplined with respect to the state
it is applied to. -/
def DisciplinedRun (fk : Bool) : DB → List Op → Prop
  | _, [] => True
  | db, op :: rest => DisciplinedOp db op ∧ DisciplinedRun fk (applyOp fk db op) rest

instance instDecDisciplinedRun (fk : Bool) :
    (db : DB) → (ops : List Op) → Decidable (DisciplinedRun fk db ops)
  | _, [] => isTrue trivial
  | db, op :: rest =>
    @instDecidableAnd _ _ _ (instDecDisciplinedRun fk (applyOp fk db op) rest)

end Metadata

namespace Metadata

/-- C3: the code declares `ON DELETE CASCADE` but opens SQLite without
enabling foreign-key enforcement, so deleting a block (here via
`MarkOrphan` + `CleanupOrphans`) leaves its subtree rows behind
(`fk = false`, the actual configuration), while under the declared schema
semantics (`fk = true`) the same sequence removes them. -/
theorem C3_cascade_not_enforced :
    (run false emptyDB
      [.put ⟨100, [1], [2], 5, .main, 0⟩ [⟨[2], 0, [3], 5, [4], [5]⟩],
       .markOrphanAt 100, .cleanup 200 100]).blocks = [] ∧
    (run false emptyDB
      [.put ⟨100, [1], [2], 5, .main, 0⟩ [⟨[2], 0, [3], 5, [4], [5]⟩],
       .markOrphanAt 100, .cleanup 200 100]).subtrees = [⟨[2], 0, [3], 5, [4], [5]⟩] ∧
    (run true emptyDB
      [.put ⟨100, [1], [2], 5, .main, 0⟩ [⟨[2], 0, [3], 5, [4], [5]⟩],
       .markOrphanAt 100, .cleanup 200 100]).subtrees = [] := by
  decide

/-- C4: a repeated `PutBlock` for the same block replaces the block row but
then hits the `(merkle_root, subtree_index)` primary key on the plain
subtree `INSERT`, because with foreign keys off (the actual configuration)
the replace does not cascade away the old subtree rows — the call errors
and, the transaction having rolled back, nothing changes.  With enforcement
on (`fk = true`) the replace cascades and the repeated call succeeds,
reproducing the same state. -/
theorem C4_putblock_repeat_fails :
    putBlock false emptyDB ⟨100, [1], [2], 5, .main, 0⟩ [⟨[2], 0, [3], 5, [4], [5]⟩] =
      some ⟨[⟨100, [1], [2], 5, .main, 0⟩], [⟨[2], 0, [3], 5, [4], [5]⟩]⟩ ∧
    putBlock false ⟨[⟨100, [1], [2], 5, .main, 0⟩], [⟨[2], 0, [3], 5, [4], [5]⟩]⟩
      ⟨100, [1], [2], 5, .main, 0⟩ [⟨[2], 0, [3], 5, [4], [5]⟩] = none ∧
    putBlock true ⟨[⟨100, [1], [2], 5, .main, 0⟩], [⟨[2], 0, [3], 5, [4], [5]⟩]⟩
      ⟨100, [1], [2], 5, .main, 0⟩ [⟨[2], 0, [3], 5, [4], [5]⟩] =
      some ⟨[⟨100, [1], [2], 5, .main, 0⟩], [⟨[2], 0, [3], 5, [4], [5]⟩]⟩ := by
  decide

/-- Counterexample for C7 as stated: two unconstrained `PutBlock` calls at
the same height with different merkle roots and block hashes leave two
`status='main'` rows at height 100. -/
theorem C7_at_most_one_main_cex :
    ((run false emptyDB
      [.put ⟨100, [1], [2], 5, .main, 0⟩ [], .put ⟨100, [6], [7], 5, .main, 0⟩ []]).blocks.filter
        (fun r => r.status == BlockStatus.main && r.height == 100)).length = 2 ∧
    ¬ AtMostOneMain (run false emptyDB
      [.put ⟨100, [1], [2], 5, .main, 0⟩ [], .put ⟨100, [6], [7], 5, .main, 0⟩ []]) := by
  decide

theorem putBlock_blocks_shape {fk : Bool} {db : DB} {b : BlockRow} {sts : List SubtreeRow}
    {db2 : DB} (h : putBlock fk db b sts = some db2) :
    db2.blocks = db.blocks.filter
      (fun r => !(r.merkleRoot == b.merkleRoot || r.blockHash == b.blockHash)) ++ [b] := by
  unfold putBlock at h
  cases hI : insertSubtrees fk
      (db.blocks.filter
        (fun r => !(r.merkleRoot == b.merkleRoot || r.blockHash == b.blockHash)) ++ [b])
      (if fk then
        db.subtrees.filter (fun s =>
          !((db.blocks.filter
              (fun r => r.merkleRoot == b.merkleRoot || r.blockHash == b.blockHash)).any
            (fun r => r.merkleRoot == s.merkleRoot)))
       else db.subtrees)
      sts with
  | none =>
    rw [hI] at h
    simp at h
  | some subs2 =>
    rw [hI] at h
    simp only [Option.some.injEq] at h
    rw [← h]

theorem applyOp_put_preserves (fk : Bool) (db : DB) (b : BlockRow) (sts : List SubtreeRow)
    (hinv : AtMostOneMain db) (hd : DisciplinedOp db (.put b sts)) :
    AtMostOneMain (applyOp fk db (.put b sts)) := by
  show AtMostOneMain ((putBlock fk db b sts).getD db)
  cases hP : putBlock fk db b sts with
  | none =>
    exact hinv
  | some db2 =>
    show AtMostOneMain db2
    unfold AtMostOneMain
    rw [putBlock_blocks_shape hP, List.pairwise_append]
    refine ⟨List.Pairwise.sublist (List.filter_sublist _) hinv, List.pairwise_singleton _ _, ?_⟩
    intro r hr x hx
    rw [List.mem_singleton] at hx
    subst hx
    rintro ⟨hrm, hbm, hh⟩
    have hmem := List.mem_filter.mp hr
    have hcon := hd hbm r hmem.1 hrm hh
    have hpred := hmem.2
    simp only [Bool.not_eq_true', Bool.or_eq_false_iff, beq_eq_false_iff_ne] at hpred
    rcases hcon with hc | hc
    · exact hpred.1 hc
    · exact hpred.2 hc

theorem markOrphan_height (r : BlockRow) (h : Nat) :
    ((if r.height == h && r.status == BlockStatus.main then
      { r with status := BlockStatus.orphan } else r) : BlockRow).height = r.height := by
  by_cases hc : (r.height == h && r.status == BlockStatus.main) = true
  · rw [if_pos hc]
  · rw [if_neg hc]

theorem markOrphan_main (r : BlockRow) (h : Nat)
    (hm : ((if r.height == h && r.status == BlockStatus.main then
      { r with status := BlockStatus.orphan } else r) : BlockRow).status = .main) :
    r.status = .main := by
  by_cases hc : (r.height == h && r.status == BlockStatus.main) = true
  · rw [if_pos hc] at hm
    simp at hm
  · rw [if_neg hc] at hm
    exact hm

theorem applyOp_markOrphan_preserves (db : DB) (h : Nat) (hinv : AtMostOneMain db) :
    AtMostOneMain (markOrphan db h) := by
  unfold AtMostOneMain markOrphan
  refine List.Pairwise.map _ ?_ hinv
  intro a b hab
  rintro ⟨h1, h2, h3⟩
  rw [markOrphan_height, markOrphan_height] at h3
  exact hab ⟨markOrphan_main a h h1, markOrphan_main b h h2, h3⟩

theorem applyOp_cleanup_preserves (fk : Bool) (db : DB) (cur depth : Nat)
    (hinv : AtMostOneMain db) : AtMostOneMain (cleanupOrphans fk db cur depth) := by
  unfold AtMostOneMain cleanupOrphans
  by_cases hc : cur < depth
  · rw [if_pos hc]
    exact hinv
  · rw [if_neg hc]
    exact List.Pairwise.sublist (List.filter_sublist _) hinv

/-- C7 (amended): starting from any state with at most one main row per
height, any sequence of `PutBlock`/`MarkOrphan`/`CleanupOrphans` operations
in which every main-status `PutBlock` either replaces the existing main row
at its height (same merkle root or block hash) or follows a `MarkOrphan` of
that height — the discipline `BlockAssembler` follows — preserves the
at-most-one-main-per-height invariant, under either foreign-key
configuration. -/
theorem C7_at_most_one_main_disciplined (fk : Bool) (db : DB) (ops : List Op)
    (hinv : AtMostOneMain db) (hdisc : DisciplinedRun fk db ops) :
    AtMostOneMain (run fk db ops) := by
  induction ops generalizing db with
  | nil => exact hinv
  | cons op rest ih =>
    obtain ⟨hd, hrest⟩ := hdisc
    have hstep : AtMostOneMain (applyOp fk db op) := by
      match op with
      | .put b sts => exact applyOp_put_preserves fk db b sts hinv hd
      | .markOrphanAt h => exact applyOp_markOrphan_preserves db h hinv
      | .cleanup cur depth => exact applyOp_cleanup_preserves fk db cur depth hinv
    exact ih (applyOp fk db op) hstep hrest

/-- Witness for C7 on a disciplined concrete sequence: put at height 100,
mark the height orphaned, put a different block at the same height. -/
theorem C7_at_most_one_main_disciplined_witness :
    AtMostOneMain (run false emptyDB
      [.put ⟨100, [1], [2], 5, .main, 0⟩ [], .markOrphanAt 100,
       .put ⟨100, [6], [7], 5, .main, 0⟩ []]) :=
  C7_at_most_one_main_disciplined false emptyDB
    [.put ⟨100, [1], [2], 5, .main, 0⟩ [], .markOrphanAt 100,
     .put ⟨100, [6], [7], 5, .main, 0⟩ []]
    (by decide) (by decide)

end Metadata

namespace Merkle

/-! ### Characterisation of `nextPowerOf2`

The Go routine smears the high bit of `n - 1` across all lower positions and
adds one.  For `1 ≤ n ≤ 2^32` the result is exactly `2 ^ clog₂ n`, the least
power of two at or above `n`. -/

/-- The bit-smearing core of `nextPowerOf2`. -/
def smear (m : Nat) : Nat :=
  let m1 := m ||| m >>> 1
  let m2 := m1 ||| m1 >>> 2
  let m3 := m2 ||| m2 >>> 4
  let m4 := m3 ||| m3 >>> 8
  m4 ||| m4 >>> 16

theorem nextPowerOf2_eq_smear (n : Nat) (hn : n ≠ 0) :
    nextPowerOf2 n = (smear (n - 1) + 1) % 4294967296 := by
  unfold nextPowerOf2 smear
  rw [if_neg hn]

theorem testBit_orShift (x w j : Nat) :
    (x ||| x >>> w).testBit j = (x.testBit j || x.testBit (j + w)) := by
  rw [Nat.testBit_or, Nat.testBit_shiftRight, Nat.add_comm w j]

theorem windowStep {x W : Nat} {Q : Nat → Bool}
    (hx : ∀ j, x.testBit j = true ↔ ∃ d, d < W ∧ Q (j + d) = true) :
    ∀ j, (x ||| x >>> W).testBit j = true ↔ ∃ d, d < 2 * W ∧ Q (j + d) = true := by
  intro j
  rw [testBit_orShift, Bool.or_eq_true]
  constructor
  · rintro (h | h)
    · obtain ⟨d, hd, hQ⟩ := (hx j).mp h
      exact ⟨d, by omega, hQ⟩
    · obtain ⟨d, hd, hQ⟩ := (hx (j + W)).mp h
      refine ⟨W + d, by omega, ?_⟩
      rw [show j + (W + d) = j + W + d from by omega]
      exact hQ
  · rintro ⟨d, hd, hQ⟩
    by_cases hdW : d < W
    · exact Or.inl ((hx j).mpr ⟨d, hdW, hQ⟩)
    · refine Or.inr ((hx (j + W)).mpr ⟨d - W, by omega, ?_⟩)
      rw [show j + W + (d - W) = j + d from by omega]
      exact hQ

theorem windowBase (m : Nat) :
    ∀ j, m.testBit j = true ↔ ∃ d, d < 1 ∧ m.testBit (j + d) = true := by
  intro j
  constructor
  · intro h
    exact ⟨0, by omega, by simpa using h⟩
  · rintro ⟨d, hd, hQ⟩
    have hd0 : d = 0 := by omega
    subst hd0
    simpa using hQ

theorem smear_testBit (m : Nat) :
    ∀ j, (smear m).testBit j = true ↔ ∃ d, d < 32 ∧ m.testBit (j + d) = true := by
  have h1 := windowStep (x := m) (W := 1) (Q := m.testBit) (windowBase m)
  have h2 := windowStep (W := 2 * 1) h1
  have h4 := windowStep (W := 2 * (2 * 1)) h2
  have h8 := windowStep (W := 2 * (2 * (2 * 1))) h4
  have h16 := windowStep (W := 2 * (2 * (2 * (2 * 1)))) h8
  intro j
  exact h16 j

/-- The highest bit of a positive number is set. -/
theorem testBit_size_pred {m : Nat} (hm : 0 < m) : m.testBit (Nat.size m - 1) = true := by
  have h1 : m < 2 ^ Nat.size m := Nat.lt_size_self m
  have hs : 0 < Nat.size m := Nat.size_pos.mpr hm
  have h2 : 2 ^ (Nat.size m - 1) ≤ m := by
    by_contra hc
    push_neg at hc
    have := Nat.size_le.mpr hc
    omega
  rw [Nat.testBit_to_div_mod]
  have hlt : m < 2 * 2 ^ (Nat.size m - 1) := by
    have he : 2 * 2 ^ (Nat.size m - 1) = 2 ^ (Nat.size m - 1 + 1) := by
      rw [pow_succ]; ring
    rw [he, show Nat.size m - 1 + 1 = Nat.size m from by omega]
    exact h1
  have hdiv : m / 2 ^ (Nat.size m - 1) = 1 :=
    Nat.div_eq_of_lt_le (by simpa using h2) (by simpa [two_mul] using hlt)
  simp [hdiv]

theorem smear_eq {m : Nat} (hm : 0 < m) (hm32 : m < 2 ^ 32) :
    smear m = 2 ^ Nat.size m - 1 := by
  have hsz : Nat.size m ≤ 32 := Nat.size_le.mpr hm32
  apply Nat.eq_of_testBit_eq
  intro j
  rw [Nat.testBit_two_pow_sub_one]
  by_cases hj : j < Nat.size m
  · rw [decide_eq_true hj, (smear_testBit m j)]
    refine ⟨Nat.size m - 1 - j, by omega, ?_⟩
    rw [show j + (Nat.size m - 1 - j) = Nat.size m - 1 from by omega]
    exact testBit_size_pred hm
  · rw [decide_eq_false hj]
    by_contra hc
    rw [Bool.not_eq_false, (smear_testBit m j)] at hc
    obtain ⟨d, hd, hQ⟩ := hc
    have hge : Nat.size m ≤ j + d := by omega
    have hlt2 : m < 2 ^ (j + d) :=
      lt_of_lt_of_le (Nat.lt_size_self m) (Nat.pow_le_pow_right (by norm_num) hge)
    rw [Nat.testBit_lt_two_pow hlt2] at hQ
    exact Bool.false_ne_true hQ

/-- Below the uint32 wrap threshold (`n ≤ 2^31`) the smear-and-increment
computes the least power of two at or above `n`. -/
theorem nextPowerOf2_eq {n : Nat} (h1 : 1 ≤ n) (h32 : n ≤ 2 ^ 31) :
    nextPowerOf2 n = 2 ^ Nat.clog 2 n := by
  rcases Nat.lt_or_ge n 2 with h2 | h2
  · have hn1 : n = 1 := by omega
    subst hn1
    rw [Nat.clog_one_right, pow_zero]
    decide
  · have hm : 0 < n - 1 := by omega
    have hm32 : n - 1 < 2 ^ 32 := by omega
    rw [nextPowerOf2_eq_smear n (by omega), smear_eq hm hm32]
    have hpos : 0 < 2 ^ Nat.size (n - 1) := Nat.pos_pow_of_pos _ (by norm_num)
    have hsz31 : Nat.size (n - 1) ≤ 31 := by
      rw [Nat.size_le]
      omega
    have hlt : 2 ^ Nat.size (n - 1) < 4294967296 := by
      calc 2 ^ Nat.size (n - 1) ≤ 2 ^ 31 := Nat.pow_le_pow_right (by norm_num) hsz31
        _ < 4294967296 := by norm_num
    rw [show 2 ^ Nat.size (n - 1) - 1 + 1 = 2 ^ Nat.size (n - 1) from by omega,
      Nat.mod_eq_of_lt hlt]
    congr 1
    apply le_antisymm
    · rw [Nat.size_le]
      have := Nat.le_pow_clog (by norm_num : 1 < 2) n
      omega
    · rw [← Nat.le_pow_iff_clog_le (by norm_num : 1 < 2)]
      have := Nat.lt_size_self (n - 1)
      omega

/-- Above the threshold the uint32 increment wraps: already at `2^31 + 1`
(representable as a uint32 transaction count) `nextPowerOf2` returns `0`, so
`buildProof` computes `mid = 0` and can no longer make progress.  This is why
the roundtrip theorem is stated for counts up to `2^31` only. -/
theorem nextPowerOf2_wrap : nextPowerOf2 (2 ^ 31 + 1) = 0 := by decide

/-- For `2 ≤ c ≤ 2^31` the split point is exactly half the least power of two
at or above `c`: positive, strictly below `c` (so the Go clamp branch is
dead), and at least half of `c`. -/
theorem midOf_facts {c : Nat} (hc : 2 ≤ c) (hc32 : c ≤ 2 ^ 31) :
    midOf c = 2 ^ (Nat.clog 2 c - 1) ∧ 1 ≤ midOf c ∧ midOf c < c ∧ c ≤ 2 * midOf c := by
  have hclog : 0 < Nat.clog 2 c := Nat.clog_pos (by norm_num) (by omega)
  have hnp : nextPowerOf2 c = 2 ^ Nat.clog 2 c := nextPowerOf2_eq (by omega) hc32
  have h2m : 2 ^ Nat.clog 2 c = 2 * 2 ^ (Nat.clog 2 c - 1) := by
    conv_lhs => rw [show Nat.clog 2 c = (Nat.clog 2 c - 1) + 1 from by omega]
    rw [pow_succ]
    ring
  have hhalf : nextPowerOf2 c / 2 = 2 ^ (Nat.clog 2 c - 1) := by
    rw [hnp, h2m]
    omega
  have hlt : 2 ^ (Nat.clog 2 c - 1) < c := Nat.pow_pred_clog_lt_self (by norm_num) (by omega)
  have hle : c ≤ 2 ^ Nat.clog 2 c := Nat.le_pow_clog (by norm_num) c
  have hmid : midOf c = 2 ^ (Nat.clog 2 c - 1) := by
    unfold midOf
    rw [hhalf, if_neg (by omega)]
  exact ⟨hmid, by rw [hmid]; exact Nat.one_le_two_pow, by rw [hmid]; exact hlt,
    by rw [hmid]; omega⟩

end Merkle

namespace Merkle

/-! ### The level-by-level tree as a function of the leaf list

`buildTreeAux` threads a store; to reason about the proof walker we express
the digest at every height and the complete list of store writes as pure
functions of the leaf level. -/

/-- `k` applications of `pairUp`. -/
def iterPair : Nat → List (List Nat) → List (List Nat)
  | 0, l => l
  | k + 1, l => iterPair k (pairUp l)

/-- The digest `buildTree` computes after `h` levels, for a level that has
collapsed to a single node. -/
def liftRoot (h : Nat) (l : List (List Nat)) : List Nat := (iterPair h l).headD []

/-- All store writes performed while collapsing `h` levels. -/
def liftWrites : Nat → List (List Nat) → List (List Nat × List Nat)
  | 0, _ => []
  | h + 1, l => levelWrites l ++ liftWrites h (pairUp l)

theorem iterPair_succ_outer : ∀ (h : Nat) (l : List (List Nat)),
    iterPair (h + 1) l = pairUp (iterPair h l)
  | 0, _ => rfl
  | h + 1, l => iterPair_succ_outer h (pairUp l)

theorem liftWrites_succ_outer : ∀ (h : Nat) (l : List (List Nat)),
    liftWrites (h + 1) l = liftWrites h l ++ levelWrites (iterPair h l)
  | 0, l => by simp [liftWrites, iterPair]
  | h + 1, l => by
    show levelWrites l ++ liftWrites (h + 1) (pairUp l) =
      (levelWrites l ++ liftWrites h (pairUp l)) ++ levelWrites (iterPair (h + 1) l)
    rw [liftWrites_succ_outer h (pairUp l), List.append_assoc]
    rfl

theorem liftRoot_length (h : Nat) : ∀ (l : List (List Nat)), l ≠ [] →
    (∀ x ∈ l, x.length = 32) → (liftRoot h l).length = 32 := by
  induction h with
  | zero =>
    intro l hne h32
    cases l with
    | nil => exact absurd rfl hne
    | cons a t => exact h32 a (by simp)
  | succ h ih =>
    intro l hne h32
    exact ih (pairUp l) (pairUp_ne_nil hne) (pairUp_mem_length h32)

theorem iterPair_singleton (k : Nat) : ∀ (l : List (List Nat)), 1 ≤ l.length →
    l.length ≤ 2 ^ k → ∃ x, iterPair k l = [x] := by
  induction k with
  | zero =>
    intro l h1 h2
    cases l with
    | nil => simp at h1
    | cons a t =>
      cases t with
      | nil => exact ⟨a, rfl⟩
      | cons b t2 =>
        exfalso
        simp [pow_zero, List.length_cons] at h2
  | succ k ih =>
    intro l h1 h2
    have hpow : (2 : Nat) ^ (k + 1) = 2 * 2 ^ k := by ring
    refine ih (pairUp l) ?_ ?_ <;> rw [pairUp_length] <;> omega

theorem pairUp_append : ∀ (X Y : List (List Nat)), X.length % 2 = 0 →
    pairUp (X ++ Y) = pairUp X ++ pairUp Y
  | [], _, _ => rfl
  | [_], _, h => by simp at h
  | a :: b :: X, Y, h => by
    have hX : X.length % 2 = 0 := by
      simp [List.length_cons] at h
      omega
    show hashPair a b :: pairUp (X ++ Y) = hashPair a b :: (pairUp X ++ pairUp Y)
    rw [pairUp_append X Y hX]

theorem levelWrites_append : ∀ (X Y : List (List Nat)), X.length % 2 = 0 →
    levelWrites (X ++ Y) = levelWrites X ++ levelWrites Y
  | [], _, _ => rfl
  | [_], _, h => by simp at h
  | a :: b :: X, Y, h => by
    have hX : X.length % 2 = 0 := by
      simp [List.length_cons] at h
      omega
    show (wrapMerkleHash (hashPair a b), a ++ b) :: levelWrites (X ++ Y) =
      (wrapMerkleHash (hashPair a b), a ++ b) :: (levelWrites X ++ levelWrites Y)
    rw [levelWrites_append X Y hX]

theorem iterPair_append_pow : ∀ (h : Nat) (X Y : List (List Nat)), X.length = 2 ^ h →
    iterPair h (X ++ Y) = iterPair h X ++ iterPair h Y := by
  intro h
  induction h with
  | zero => intro X Y _; rfl
  | succ h ih =>
    intro X Y hX
    have heven : X.length % 2 = 0 := by
      have hpow : (2 : Nat) ^ (h + 1) = 2 * 2 ^ h := by ring
      omega
    have hplen : (pairUp X).length = 2 ^ h := by
      rw [pairUp_length, hX]
      have hpow : (2 : Nat) ^ (h + 1) = 2 * 2 ^ h := by ring
      omega
    show iterPair h (pairUp (X ++ Y)) = iterPair h (pairUp X) ++ iterPair h (pairUp Y)
    rw [pairUp_append X Y heven]
    exact ih (pairUp X) (pairUp Y) hplen

theorem liftWrites_take_subset : ∀ (h : Nat) (X Y : List (List Nat)), X.length = 2 ^ h →
    liftWrites h X ⊆ liftWrites h (X ++ Y) := by
  intro h
  induction h with
  | zero => intro X Y _; exact List.nil_subset _
  | succ h ih =>
    intro X Y hX
    have heven : X.length % 2 = 0 := by
      have hpow : (2 : Nat) ^ (h + 1) = 2 * 2 ^ h := by ring
      omega
    have hplen : (pairUp X).length = 2 ^ h := by
      rw [pairUp_length, hX]
      have hpow : (2 : Nat) ^ (h + 1) = 2 * 2 ^ h := by ring
      omega
    show levelWrites X ++ liftWrites h (pairUp X) ⊆
      levelWrites (X ++ Y) ++ liftWrites h (pairUp (X ++ Y))
    rw [levelWrites_append X Y heven, pairUp_append X Y heven]
    refine List.append_subset.mpr ⟨?_, ?_⟩
    · exact (List.subset_append_left _ _).trans (List.subset_append_left _ _)
    · exact (ih (pairUp X) (pairUp Y) hplen).trans (List.subset_append_right _ _)

theorem liftWrites_drop_subset : ∀ (h : Nat) (X Y : List (List Nat)), X.length = 2 ^ h →
    liftWrites h Y ⊆ liftWrites h (X ++ Y) := by
  intro h
  induction h with
  | zero => intro X Y _; exact List.nil_subset _
  | succ h ih =>
    intro X Y hX
    have heven : X.length % 2 = 0 := by
      have hpow : (2 : Nat) ^ (h + 1) = 2 * 2 ^ h := by ring
      omega
    have hplen : (pairUp X).length = 2 ^ h := by
      rw [pairUp_length, hX]
      have hpow : (2 : Nat) ^ (h + 1) = 2 * 2 ^ h := by ring
      omega
    show levelWrites Y ++ liftWrites h (pairUp Y) ⊆
      levelWrites (X ++ Y) ++ liftWrites h (pairUp (X ++ Y))
    rw [levelWrites_append X Y heven, pairUp_append X Y heven]
    refine List.append_subset.mpr ⟨?_, ?_⟩
    · exact (List.subset_append_right _ _).trans (List.subset_append_left _ _)
    · exact (ih (pairUp X) (pairUp Y) hplen).trans (List.subset_append_right _ _)

end Merkle

namespace Merkle

/-- When a level of at most `2^h` nodes is collapsed one more time, the extra
level duplicates the single remaining digest: the new root is
`hashPair x x`, its 64-byte node is among the writes, and all earlier writes
survive. -/
theorem liftDup (h : Nat) (C : List (List Nat)) (h1 : 1 ≤ C.length)
    (h2 : C.length ≤ 2 ^ h) :
    liftRoot (h + 1) C = hashPair (liftRoot h C) (liftRoot h C) ∧
    (wrapMerkleHash (liftRoot (h + 1) C), liftRoot h C ++ liftRoot h C) ∈
      liftWrites (h + 1) C ∧
    liftWrites h C ⊆ liftWrites (h + 1) C := by
  obtain ⟨x, hx⟩ := iterPair_singleton h C h1 h2
  have hroot : liftRoot h C = x := by rw [liftRoot, hx]; rfl
  have hroot1 : liftRoot (h + 1) C = hashPair x x := by
    rw [liftRoot, iterPair_succ_outer, hx]
    rfl
  refine ⟨by rw [hroot1, hroot], ?_, ?_⟩
  · rw [liftWrites_succ_outer, hroot1, hroot, hx]
    exact List.mem_append.mpr (Or.inr (by simp [levelWrites]))
  · rw [liftWrites_succ_outer]
    exact List.subset_append_left _ _

/-- When a level of more than `2^h` (but at most `2^(h+1)`) nodes is
collapsed, the root hashes the independent roots of the first `2^h` nodes and
the rest, the 64-byte node is among the writes, and the writes of both halves
survive. -/
theorem liftSplitTop (h : Nat) (C : List (List Nat)) (hgt : 2 ^ h < C.length)
    (hle : C.length ≤ 2 ^ (h + 1)) :
    liftRoot (h + 1) C =
      hashPair (liftRoot h (C.take (2 ^ h))) (liftRoot h (C.drop (2 ^ h))) ∧
    (wrapMerkleHash (liftRoot (h + 1) C),
      liftRoot h (C.take (2 ^ h)) ++ liftRoot h (C.drop (2 ^ h))) ∈
      liftWrites (h + 1) C ∧
    liftWrites h (C.take (2 ^ h)) ⊆ liftWrites (h + 1) C ∧
    liftWrites h (C.drop (2 ^ h)) ⊆ liftWrites (h + 1) C := by
  have hXlen : (C.take (2 ^ h)).length = 2 ^ h := by
    rw [List.length_take]
    omega
  have hYlen : (C.drop (2 ^ h)).length = C.length - 2 ^ h := List.length_drop ..
  have hC : C.take (2 ^ h) ++ C.drop (2 ^ h) = C := List.take_append_drop ..
  obtain ⟨x, hx⟩ := iterPair_singleton h (C.take (2 ^ h)) (by omega) (by omega)
  obtain ⟨y, hy⟩ := iterPair_singleton h (C.drop (2 ^ h)) (by omega) (by omega)
  have hiter : iterPair h C = [x, y] := by
    rw [← hC, iterPair_append_pow h _ _ hXlen, hx, hy]
    rfl
  have hrx : liftRoot h (C.take (2 ^ h)) = x := by rw [liftRoot, hx]; rfl
  have hry : liftRoot h (C.drop (2 ^ h)) = y := by rw [liftRoot, hy]; rfl
  have hroot1 : liftRoot (h + 1) C = hashPair x y := by
    rw [liftRoot, iterPair_succ_outer, hiter]
    rfl
  refine ⟨by rw [hroot1, hrx, hry], ?_, ?_, ?_⟩
  · rw [liftWrites_succ_outer, hroot1, hrx, hry, hiter]
    exact List.mem_append.mpr (Or.inr (by simp [levelWrites]))
  · calc liftWrites h (C.take (2 ^ h))
        ⊆ liftWrites h (C.take (2 ^ h) ++ C.drop (2 ^ h)) :=
          liftWrites_take_subset h _ _ hXlen
      _ = liftWrites h C := by rw [hC]
      _ ⊆ liftWrites (h + 1) C := by
          rw [liftWrites_succ_outer]
          exact List.subset_append_left _ _
  · calc liftWrites h (C.drop (2 ^ h))
        ⊆ liftWrites h (C.take (2 ^ h) ++ C.drop (2 ^ h)) :=
          liftWrites_drop_subset h _ _ hXlen
      _ = liftWrites h C := by rw [hC]
      _ ⊆ liftWrites (h + 1) C := by
          rw [liftWrites_succ_outer]
          exact List.subset_append_left _ _

theorem headD_drop : ∀ (k : Nat) (l : List (List Nat)),
    (l.drop k).headD [] = l.getD k []
  | 0, l => by cases l <;> rfl
  | _ + 1, [] => rfl
  | k + 1, _ :: t => headD_drop k t

theorem getD_take : ∀ (k pos : Nat) (l : List (List Nat)), pos < k →
    (l.take k).getD pos [] = l.getD pos []
  | 0, _, _, h => absurd h (by omega)
  | _ + 1, _, [], _ => by rw [List.take_nil]
  | _ + 1, 0, _ :: _, _ => rfl
  | k + 1, pos + 1, _ :: t, h => getD_take k pos t (by omega)

theorem getD_drop : ∀ (k j : Nat) (l : List (List Nat)),
    (l.drop k).getD j [] = l.getD (k + j) []
  | 0, j, _ => by
    rw [Nat.zero_add]
    rfl
  | _ + 1, j, [] => by
    rw [List.drop_nil]
    cases j <;> rfl
  | k + 1, j, _ :: t => by
    rw [show k + 1 + j = k + j + 1 from by omega]
    exact getD_drop k j t

end Merkle

namespace Merkle

/-- `buildTreeAux` computes exactly the lifted root and performs exactly the
lifted writes, where the number of levels is `clog₂` of the leaf count. -/
theorem buildTreeAux_eq_lift : ∀ (fuel : Nat) (st : Store) (l : List (List Nat)),
    l ≠ [] → l.length ≤ fuel →
    buildTreeAux st l fuel =
      some (liftRoot (Nat.clog 2 l.length) l,
        storePutMany st (liftWrites (Nat.clog 2 l.length) l)) := by
  intro fuel
  induction fuel with
  | zero =>
    intro st l hne hfuel
    cases l with
    | nil => exact absurd rfl hne
    | cons a t => simp at hfuel
  | succ fuel ih =>
    intro st l hne hfuel
    match l with
    | [x] =>
      rw [show Nat.clog 2 (List.length [x]) = 0 by simp [Nat.clog_one_right]]
      rfl
    | a :: b :: rest =>
      have hlen : (pairUp (a :: b :: rest)).length = ((a :: b :: rest).length + 1) / 2 :=
        pairUp_length _
      have hlen2 : 2 ≤ (a :: b :: rest).length := by simp [List.length_cons]
      have hfuel' : (pairUp (a :: b :: rest)).length ≤ fuel := by
        simp only [List.length_cons] at hlen hlen2 hfuel ⊢
        omega
      have hstep := ih (storePutMany st (levelWrites (a :: b :: rest)))
        (pairUp (a :: b :: rest)) (pairUp_ne_nil (by simp)) hfuel'
      have hclog : Nat.clog 2 (a :: b :: rest).length =
          Nat.clog 2 ((pairUp (a :: b :: rest)).length) + 1 := by
        rw [hlen]
        have := Nat.clog_of_two_le (by norm_num : 1 < 2) hlen2
        simpa using this
      show buildTreeAux (storePutMany st (levelWrites (a :: b :: rest)))
        (pairUp (a :: b :: rest)) fuel = _
      rw [hstep, hclog, storePutMany_append]
      rfl

/-- Every listed write is retrievable from the store that results from playing
the writes into the empty store, provided no two writes disagree on a key. -/
def GoodFor (st : Store) (ws : List (List Nat × List Nat)) : Prop :=
  ∀ kv ∈ ws, storeGet st kv.1 = some kv.2

theorem storePutMany_eq_reverse_append : ∀ (ws : List (List Nat × List Nat)) (st : Store),
    storePutMany st ws = ws.reverse ++ st
  | [], _ => rfl
  | kv :: ws, st => by
    show storePutMany ((kv.1, kv.2) :: st) ws = (kv :: ws).reverse ++ st
    rw [storePutMany_eq_reverse_append ws]
    simp

theorem goodFor_of_consistent (ws : List (List Nat × List Nat))
    (hcons : ∀ kv ∈ ws, ∀ kv2 ∈ ws, kv.1 = kv2.1 → kv.2 = kv2.2) :
    GoodFor (storePutMany [] ws) ws := by
  intro kv hkv
  rw [storePutMany_eq_reverse_append]
  unfold storeGet
  have hsome : ((ws.reverse ++ []).find? (fun kv2 : List Nat × List Nat => kv2.1 == kv.1)).isSome := by
    rw [List.find?_isSome]
    exact ⟨kv, by simp [hkv], by simp⟩
  obtain ⟨kv2, hkv2⟩ := Option.isSome_iff_exists.mp hsome
  have hp := List.find?_some hkv2
  have hm : kv2 ∈ ws := by
    have := List.mem_of_find?_eq_some hkv2
    simpa using this
  have hkey : kv2.1 = kv.1 := by simpa using hp
  have hval : kv2.2 = kv.2 := hcons kv2 hm kv hkv hkey
  rw [hkv2]
  simp [hval]

/-- The one-step unfolding of the proof walker at an internal node. -/
theorem buildProofAux_step {st : Store} {nodeHash : List Nat} {pos c fuel : Nat}
    {nodeData : List Nat} (hc : c ≠ 1) (hget : storeGet st nodeHash = some nodeData)
    (hlen : nodeData.length = 64) :
    buildProofAux st nodeHash pos c (fuel + 1) =
      if pos < midOf c then
        if midOf c = 1 then
          some (nodeData.take 32, [⟨nodeData.drop 32, false, midOf c⟩])
        else
          (buildProofAux st (wrapMerkleHash (nodeData.take 32)) pos (midOf c) fuel).map
            (fun tn => (tn.1, ⟨nodeData.drop 32, false, midOf c⟩ :: tn.2))
      else if c - midOf c = 1 then
        some (nodeData.drop 32, [⟨nodeData.take 32, true, 0⟩])
      else
        (buildProofAux st (wrapMerkleHash (nodeData.drop 32)) (pos - midOf c)
          (c - midOf c) fuel).map
          (fun tn => (tn.1, ⟨nodeData.take 32, true, 0⟩ :: tn.2)) := by
  conv_lhs => rw [buildProofAux]
  rw [if_neg hc, hget]
  simp only []
  rw [if_neg (by simp [hlen])]

end Merkle

namespace Merkle

theorem foldNodes_nil (t : List Nat) : foldNodes [] t = t := rfl

theorem foldNodes_cons (n : ProofNode) (ns : List ProofNode) (t : List Nat) :
    foldNodes (n :: ns) t =
      if n.isLeft then hashPair n.hash (foldNodes ns t)
      else hashPair (foldNodes ns t) n.hash := rfl

theorem foldNodes_cons_left (h : List Nat) (p : Nat) (ns : List ProofNode) (t : List Nat) :
    foldNodes (⟨h, true, p⟩ :: ns) t = hashPair h (foldNodes ns t) := by
  rw [foldNodes_cons]
  simp

theorem foldNodes_cons_right (h : List Nat) (p : Nat) (ns : List ProofNode) (t : List Nat) :
    foldNodes (⟨h, false, p⟩ :: ns) t = hashPair (foldNodes ns t) h := by
  rw [foldNodes_cons]
  simp

set_option maxHeartbeats 1000000 in
/-- Correctness of the proof walker over a lifted tree: starting from the
wrapped digest of any `h`-level subtree whose writes are all retrievable from
the store, the walk succeeds and the verification fold reproduces the subtree
digest; when the claimed count and the actual leaf count both equal `2^h`
(the perfect case) the recorded txid is the leaf at the requested position. -/
theorem buildProofAux_ok : ∀ (fuel : Nat) (c h : Nat) (C : List (List Nat)) (st : Store)
    (pos : Nat), 1 ≤ c → c ≤ fuel → c ≤ 2 ^ h → h ≤ 31 →
    1 ≤ C.length → C.length ≤ 2 ^ h → (∀ x ∈ C, x.length = 32) → pos < c →
    GoodFor st (liftWrites h C) →
    ∃ t ns, buildProofAux st (wrapMerkleHash (liftRoot h C)) pos c fuel = some (t, ns) ∧
      foldNodes ns t = liftRoot h C ∧
      (c = 2 ^ h → C.length = 2 ^ h → t = C.getD pos []) := by
  intro fuel
  induction fuel with
  | zero =>
    intro c h C st pos hc1 hcf _ _ _ _ _ _ _
    omega
  | succ fuel ih =>
    intro c h C st pos hc1 hcf hch hh32 hC1 hC2 h32 hpos hstore
    have hne : C ≠ [] := List.ne_nil_of_length_pos (by omega)
    by_cases hc : c = 1
    · subst hc
      refine ⟨liftRoot h C, [], ?_, foldNodes_nil _, ?_⟩
      · conv_lhs => rw [buildProofAux]
        rw [if_pos rfl, merkleRaw_wrap (liftRoot_length h C hne h32)]
        rfl
      · intro hceq hCeq
        have hh0 : h = 0 := by
          cases h with
          | zero => rfl
          | succ k =>
            exfalso
            have h1 : (2:Nat) ^ (k+1) = 2 * 2 ^ k := by ring
            have h2 : 1 ≤ (2:Nat) ^ k := Nat.one_le_two_pow
            omega
        subst hh0
        have hp0 : pos = 0 := by omega
        subst hp0
        cases C with
        | nil => exact absurd rfl hne
        | cons a t => rfl
    · have hc2 : 2 ≤ c := by omega
      have hh0 : h ≠ 0 := by
        intro h0
        subst h0
        simp [pow_zero] at hch
        omega
      obtain ⟨hh, rfl⟩ : ∃ hh, h = hh + 1 := ⟨h - 1, by omega⟩
      have hpow : (2:Nat) ^ (hh+1) = 2 * 2 ^ hh := by ring
      have hcap1 : 1 ≤ (2:Nat) ^ hh := Nat.one_le_two_pow
      have hc32 : c ≤ 2 ^ 31 :=
        le_trans hch (Nat.pow_le_pow_right (by norm_num) hh32)
      obtain ⟨hmid_eq, hmid1, hmidlt, hmid2⟩ := midOf_facts hc2 hc32
      have hmidcap : midOf c ≤ 2 ^ hh := by
        rw [hmid_eq]
        refine Nat.pow_le_pow_right (by norm_num) ?_
        have : Nat.clog 2 c ≤ hh + 1 :=
          (Nat.le_pow_iff_clog_le (by norm_num)).mp hch
        omega
      have hcm : c - midOf c ≤ 2 ^ hh := by omega
      have hperfmid : c = 2 ^ (hh + 1) → midOf c = 2 ^ hh := by
        intro hceq
        rw [hmid_eq, hceq, Nat.clog_pow 2 (hh+1) (by norm_num)]
        congr 1
      by_cases hdup : C.length ≤ 2 ^ hh
      · obtain ⟨hroot, hmem, hsub⟩ := liftDup hh C hC1 hdup
        have hget : storeGet st (wrapMerkleHash (liftRoot (hh+1) C)) =
            some (liftRoot hh C ++ liftRoot hh C) := hstore _ hmem
        have hX32 : (liftRoot hh C).length = 32 := liftRoot_length hh C hne h32
        have hlen64 : (liftRoot hh C ++ liftRoot hh C).length = 64 := by
          rw [List.length_append, hX32]
        have htake : (liftRoot hh C ++ liftRoot hh C).take 32 = liftRoot hh C :=
          List.take_left' hX32
        have hdrop : (liftRoot hh C ++ liftRoot hh C).drop 32 = liftRoot hh C :=
          List.drop_left' hX32
        have hperfno : C.length ≠ 2 ^ (hh+1) := by omega
        rcases Nat.lt_or_ge pos (midOf c) with hposm | hposm
        · by_cases hm1 : midOf c = 1
          · refine ⟨liftRoot hh C, [⟨liftRoot hh C, false, midOf c⟩], ?_, ?_, ?_⟩
            · rw [buildProofAux_step hc hget hlen64, if_pos hposm, if_pos hm1, htake, hdrop]
            · rw [foldNodes_cons_right, foldNodes_nil]
              exact hroot.symm
            · intro _ hCeq
              exact absurd hCeq hperfno
          · obtain ⟨t, ns, hbp, hfold, _⟩ := ih (midOf c) hh C st pos hmid1
              (by omega) hmidcap (by omega) hC1 hdup h32 hposm
              (fun kv hkv => hstore kv (hsub hkv))
            refine ⟨t, ⟨liftRoot hh C, false, midOf c⟩ :: ns, ?_, ?_, ?_⟩
            · rw [buildProofAux_step hc hget hlen64, if_pos hposm, if_neg hm1, htake,
                hdrop, hbp]
              rfl
            · rw [foldNodes_cons_right, hfold]
              exact hroot.symm
            · intro _ hCeq
              exact absurd hCeq hperfno
        · by_cases hlast : c - midOf c = 1
          · refine ⟨liftRoot hh C, [⟨liftRoot hh C, true, 0⟩], ?_, ?_, ?_⟩
            · rw [buildProofAux_step hc hget hlen64, if_neg (by omega), if_pos hlast,
                htake, hdrop]
            · rw [foldNodes_cons_left, foldNodes_nil]
              exact hroot.symm
            · intro _ hCeq
              exact absurd hCeq hperfno
          · obtain ⟨t, ns, hbp, hfold, _⟩ := ih (c - midOf c) hh C st (pos - midOf c)
              (by omega) (by omega) hcm (by omega) hC1 hdup h32 (by omega)
              (fun kv hkv => hstore kv (hsub hkv))
            refine ⟨t, ⟨liftRoot hh C, true, 0⟩ :: ns, ?_, ?_, ?_⟩
            · rw [buildProofAux_step hc hget hlen64, if_neg (by omega), if_neg hlast,
                htake, hdrop, hbp]
              rfl
            · rw [foldNodes_cons_left, hfold]
              exact hroot.symm
            · intro _ hCeq
              exact absurd hCeq hperfno
      · push_neg at hdup
        obtain ⟨hroot, hmem, hsubL, hsubR⟩ := liftSplitTop hh C hdup hC2
        have hTne : C.take (2 ^ hh) ≠ [] := by
          refine List.ne_nil_of_length_pos ?_
          rw [List.length_take]
          omega
        have hDne : C.drop (2 ^ hh) ≠ [] := by
          refine List.ne_nil_of_length_pos ?_
          rw [List.length_drop]
          omega
        have hT32 : ∀ x ∈ C.take (2 ^ hh), x.length = 32 :=
          fun x hx => h32 x (List.mem_of_mem_take hx)
        have hD32 : ∀ x ∈ C.drop (2 ^ hh), x.length = 32 :=
          fun x hx => h32 x (List.mem_of_mem_drop hx)
        have hA32 : (liftRoot hh (C.take (2 ^ hh))).length = 32 :=
          liftRoot_length hh _ hTne hT32
        have hB32 : (liftRoot hh (C.drop (2 ^ hh))).length = 32 :=
          liftRoot_length hh _ hDne hD32
        have hget : storeGet st (wrapMerkleHash (liftRoot (hh+1) C)) =
            some (liftRoot hh (C.take (2 ^ hh)) ++ liftRoot hh (C.drop (2 ^ hh))) :=
          hstore _ hmem
        have hlen64 :
            (liftRoot hh (C.take (2 ^ hh)) ++ liftRoot hh (C.drop (2 ^ hh))).length = 64 := by
          rw [List.length_append, hA32, hB32]
        have htake :
            (liftRoot hh (C.take (2 ^ hh)) ++ liftRoot hh (C.drop (2 ^ hh))).take 32 =
              liftRoot hh (C.take (2 ^ hh)) := List.take_left' hA32
        have hdrop :
            (liftRoot hh (C.take (2 ^ hh)) ++ liftRoot hh (C.drop (2 ^ hh))).drop 32 =
              liftRoot hh (C.drop (2 ^ hh)) := List.drop_left' hA32
        have hTlen : (C.take (2 ^ hh)).length = 2 ^ hh := by
          rw [List.length_take]
          omega
        have hDlen : (C.drop (2 ^ hh)).length = C.length - 2 ^ hh := List.length_drop ..
        rcases Nat.lt_or_ge pos (midOf c) with hposm | hposm
        · by_cases hm1 : midOf c = 1
          · refine ⟨liftRoot hh (C.take (2 ^ hh)),
              [⟨liftRoot hh (C.drop (2 ^ hh)), false, midOf c⟩], ?_, ?_, ?_⟩
            · rw [buildProofAux_step hc hget hlen64, if_pos hposm, if_pos hm1, htake, hdrop]
            · rw [foldNodes_cons_right, foldNodes_nil]
              exact hroot.symm
            · intro hceq _
              have hcap : midOf c = 2 ^ hh := hperfmid hceq
              have hcap1' : (2:Nat) ^ hh = 1 := by omega
              have hh0 : hh = 0 := by
                cases hh with
                | zero => rfl
                | succ k =>
                  exfalso
                  have h1 : (2:Nat) ^ (k+1) = 2 * 2 ^ k := by ring
                  have h2 : 1 ≤ (2:Nat) ^ k := Nat.one_le_two_pow
                  omega
              subst hh0
              have hp0 : pos = 0 := by omega
              subst hp0
              cases C with
              | nil => exact absurd rfl hne
              | cons a t => rfl
          · obtain ⟨t, ns, hbp, hfold, hperf⟩ := ih (midOf c) hh (C.take (2 ^ hh)) st pos
              hmid1 (by omega) hmidcap (by omega) (by omega) (by omega) hT32 hposm
              (fun kv hkv => hstore kv (hsubL hkv))
            refine ⟨t, ⟨liftRoot hh (C.drop (2 ^ hh)), false, midOf c⟩ :: ns, ?_, ?_, ?_⟩
            · rw [buildProofAux_step hc hget hlen64, if_pos hposm, if_neg hm1, htake,
                hdrop, hbp]
              rfl
            · rw [foldNodes_cons_right, hfold]
              exact hroot.symm
            · intro hceq _
              have hcap : midOf c = 2 ^ hh := hperfmid hceq
              have ht := hperf (by omega) (by omega)
              rw [ht]
              exact getD_take _ _ _ (by omega)
        · by_cases hlast : c - midOf c = 1
          · refine ⟨liftRoot hh (C.drop (2 ^ hh)),
              [⟨liftRoot hh (C.take (2 ^ hh)), true, 0⟩], ?_, ?_, ?_⟩
            · rw [buildProofAux_step hc hget hlen64, if_neg (by omega), if_pos hlast,
                htake, hdrop]
            · rw [foldNodes_cons_left, foldNodes_nil]
              exact hroot.symm
            · intro hceq _
              have hcap : midOf c = 2 ^ hh := hperfmid hceq
              have hcap1' : (2:Nat) ^ hh = 1 := by omega
              have hh0 : hh = 0 := by
                cases hh with
                | zero => rfl
                | succ k =>
                  exfalso
                  have h1 : (2:Nat) ^ (k+1) = 2 * 2 ^ k := by ring
                  have h2 : 1 ≤ (2:Nat) ^ k := Nat.one_le_two_pow
                  omega
              subst hh0
              have hp1 : pos = 1 := by omega
              subst hp1
              show (C.drop 1).headD [] = C.getD 1 []
              exact headD_drop 1 C
          · obtain ⟨t, ns, hbp, hfold, hperf⟩ := ih (c - midOf c) hh (C.drop (2 ^ hh)) st
              (pos - midOf c) (by omega) (by omega) hcm (by omega) (by omega) (by omega)
              hD32 (by omega) (fun kv hkv => hstore kv (hsubR hkv))
            refine ⟨t, ⟨liftRoot hh (C.take (2 ^ hh)), true, 0⟩ :: ns, ?_, ?_, ?_⟩
            · rw [buildProofAux_step hc hget hlen64, if_neg (by omega), if_neg hlast,
                htake, hdrop, hbp]
              rfl
            · rw [foldNodes_cons_left, hfold]
              exact hroot.symm
            · intro hceq hCeq
              have hcap : midOf c = 2 ^ hh := hperfmid hceq
              have ht := hperf (by omega) (by omega)
              rw [ht, getD_drop]
              congr 1
              omega

end Merkle

namespace Merkle

set_option maxHeartbeats 1000000 in
/-- C1: for every non-empty list `T` of at most `2^31` 32-byte txids built
into a subtree merkle tree (stored digests consistent, i.e. no SHA-256
collisions among the stored nodes), and every position `i < |T|`,
`BuildMerkleProof` succeeds and `VerifyProof` accepts the proof against the
raw root; the recorded txid equals `T[i]` whenever `|T|` is a power of two.
(For other sizes the walker records internal duplicated-node digests — see
the counterexample; for counts above `2^31` the uint32 `nextPowerOf2` wraps
to zero — see `nextPowerOf2_wrap` — and the walker fails instead.) -/
theorem C1_merkle_proof_roundtrip (T : List (List Nat)) (i : Nat) (root : List Nat)
    (st2 : Store) (hlen32 : ∀ t ∈ T, t.length = 32) (hT : T ≠ [])
    (hbound : T.length ≤ 2 ^ 31) (hi : i < T.length)
    (hbuild : BuildSubtreeMerkleTree [] T = some (root, st2))
    (hnc : ∀ kv ∈ st2, ∀ kv2 ∈ st2, kv.1 = kv2.1 → kv.2 = kv2.2) :
    ∃ p, BuildMerkleProof st2 root i T.length = some p ∧
      VerifyProof p (merkleRawD root) = true ∧
      ((∃ k, T.length = 2 ^ k) → p.txid = T.getD i []) := by
  cases T with
  | nil => exact absurd rfl hT
  | cons a tl =>
    cases tl with
    | nil =>
      simp only [BuildSubtreeMerkleTree, Option.some.injEq, Prod.mk.injEq] at hbuild
      obtain ⟨hroot, hst⟩ := hbuild
      subst hroot
      subst hst
      have hi0 : i = 0 := by
        simp only [List.length_cons, List.length_nil] at hi
        omega
      subst hi0
      have ha32 : a.length = 32 := hlen32 a (by simp)
      refine ⟨⟨a, 0, []⟩, ?_, ?_, ?_⟩
      · show BuildMerkleProof [] (wrapMerkleHash a) 0 (List.length [a]) = some ⟨a, 0, []⟩
        unfold BuildMerkleProof
        rw [if_neg (by simp)]
        have hstep : buildProofAux [] (wrapMerkleHash a) 0 (List.length [a])
            (List.length [a] + 1) = some (a, []) := by
          conv_lhs => rw [buildProofAux]
          rw [if_pos (show List.length [a] = 1 from rfl), merkleRaw_wrap ha32]
          rfl
        rw [hstep]
        rfl
      · show (foldNodes [] a == merkleRawD (wrapMerkleHash a)) = true
        rw [foldNodes_nil]
        unfold merkleRawD
        rw [merkleRaw_wrap ha32]
        simp
      · intro _
        rfl
    | cons b rest =>
      have hne : (a :: b :: rest) ≠ [] := by simp
      have hlift := buildTreeAux_eq_lift ((a :: b :: rest).length + 1) [] (a :: b :: rest)
        hne (by omega)
      rw [show BuildSubtreeMerkleTree [] (a :: b :: rest) =
          (buildTreeAux [] (a :: b :: rest) ((a :: b :: rest).length + 1)).map
            (fun rs => (wrapMerkleHash rs.1, rs.2)) from rfl, hlift] at hbuild
      simp only [Option.map_some', Option.some.injEq, Prod.mk.injEq] at hbuild
      obtain ⟨hroot, hst⟩ := hbuild
      subst hroot
      subst hst
      have hH32 : Nat.clog 2 (a :: b :: rest).length ≤ 31 :=
        (Nat.le_pow_iff_clog_le (by norm_num)).mp hbound
      have hcle : (a :: b :: rest).length ≤ 2 ^ Nat.clog 2 (a :: b :: rest).length :=
        Nat.le_pow_clog (by norm_num) _
      have hcons : ∀ kv ∈ liftWrites (Nat.clog 2 (a :: b :: rest).length) (a :: b :: rest),
          ∀ kv2 ∈ liftWrites (Nat.clog 2 (a :: b :: rest).length) (a :: b :: rest),
          kv.1 = kv2.1 → kv.2 = kv2.2 := by
        intro kv hkv kv2 hkv2 hk
        refine hnc kv ?_ kv2 ?_ hk
        · rw [storePutMany_eq_reverse_append]
          exact List.mem_append.mpr (Or.inl (List.mem_reverse.mpr hkv))
        · rw [storePutMany_eq_reverse_append]
          exact List.mem_append.mpr (Or.inl (List.mem_reverse.mpr hkv2))
      have hGood := goodFor_of_consistent _ hcons
      obtain ⟨t, ns, hbp, hfold, hperf⟩ := buildProofAux_ok ((a :: b :: rest).length + 1)
        ((a :: b :: rest).length) (Nat.clog 2 (a :: b :: rest).length) (a :: b :: rest)
        (storePutMany [] (liftWrites (Nat.clog 2 (a :: b :: rest).length) (a :: b :: rest)))
        i (by omega) (by omega) hcle hH32 (by omega) hcle hlen32 hi hGood
      refine ⟨⟨t, i, ns⟩, ?_, ?_, ?_⟩
      · show BuildMerkleProof _ _ i _ = _
        unfold BuildMerkleProof
        rw [if_neg (by omega), hbp]
        rfl
      · show (foldNodes ns t ==
          merkleRawD (wrapMerkleHash
            (liftRoot (Nat.clog 2 (a :: b :: rest).length) (a :: b :: rest)))) = true
        have hraw : merkleRawD (wrapMerkleHash
            (liftRoot (Nat.clog 2 (a :: b :: rest).length) (a :: b :: rest))) =
            liftRoot (Nat.clog 2 (a :: b :: rest).length) (a :: b :: rest) := by
          unfold merkleRawD
          rw [merkleRaw_wrap (liftRoot_length _ _ hne hlen32)]
          rfl
        rw [hfold, hraw]
        simp
      · rintro ⟨k, hk⟩
        have hH : Nat.clog 2 (a :: b :: rest).length = k := by
          rw [hk]
          exact Nat.clog_pow 2 k (by norm_num)
        show t = (a :: b :: rest).getD i []
        apply hperf
        · rw [hH]
          exact hk
        · rw [hH]
          exact hk

end Merkle

namespace Merkle

set_option maxRecDepth 1000000 in
theorem C1_merkle_proof_roundtrip_witness :
    ∃ p, BuildMerkleProof
        [(wrapMerkleHash (hashPair (List.replicate 32 1) (List.replicate 32 2)),
          List.replicate 32 1 ++ List.replicate 32 2)]
        (wrapMerkleHash (hashPair (List.replicate 32 1) (List.replicate 32 2))) 1
        (List.length [List.replicate 32 1, List.replicate 32 2]) = some p ∧
      VerifyProof p (merkleRawD
        (wrapMerkleHash (hashPair (List.replicate 32 1) (List.replicate 32 2)))) = true ∧
      ((∃ k, List.length [List.replicate 32 1, List.replicate 32 2] = 2 ^ k) →
        p.txid = [List.replicate 32 1, List.replicate 32 2].getD 1 []) :=
  C1_merkle_proof_roundtrip [List.replicate 32 1, List.replicate 32 2] 1
    (wrapMerkleHash (hashPair (List.replicate 32 1) (List.replicate 32 2)))
    [(wrapMerkleHash (hashPair (List.replicate 32 1) (List.replicate 32 2)),
      List.replicate 32 1 ++ List.replicate 32 2)]
    (by decide) (by decide) (by decide) (by decide) (by decide) (by decide)

set_option maxRecDepth 1000000 in
/-- The original claim fails for non-power-of-two trees: with three leaves and
position 2, the walker stops at the duplicated internal node, records
`dSHA(T₂‖T₂)` as the txid (not `T₂`), yet `VerifyProof` still accepts. -/
theorem C1_merkle_proof_roundtrip_cex :
    ((BuildSubtreeMerkleTree []
        [List.replicate 32 1, List.replicate 32 2, List.replicate 32 3]).bind
      (fun rs => (BuildMerkleProof rs.2 rs.1 2 3).map
        (fun p => (VerifyProof p (merkleRawD rs.1), p.txid)))) =
      some (true, hashPair (List.replicate 32 3) (List.replicate 32 3)) ∧
    hashPair (List.replicate 32 3) (List.replicate 32 3) ≠ List.replicate 32 3 := by
  constructor
  · decide
  · decide

end Merkle
